import Mathlib

/-!
Verification of the adversarial-search core of a 3D connect-style game engine.

The board is a 3D gravity grid of bytes ('x', 'o', '|' for empty) with per-column
stack heights, a cached heuristic score, a cached winner flag and a last-move
record.  Moves are strings such as "A1": a column letter plus a 1-based row
number; the z coordinate is forced by gravity.  The evaluator sums, over every
line segment of `winLength` colinear cells (13 canonical directions), an
exponential weight `base^count` for segments owned by a single player.
`Move`/`UnMove` keep the cached score consistent through a per-cell delta
evaluator, and piggy-back win detection on the same scan.

Modelling conventions:
  * Go `int` is modelled as `Int` (64-bit overflow never matters at the
    magnitudes the engine produces; the `MIN_INT`/`MAX_INT` sentinels are the
    explicit 64-bit constants).
  * Go strings (byte slices) are modelled as `List Char`; all strings the
    engine builds or parses are ASCII, where bytes and characters coincide.
  * `int(math.Pow(float64(base), float64(n)))` is modelled as the exact integer
    power `base ^ n` (exact for the magnitudes used; the cache invariant only
    needs both evaluators to use the same function).
  * The 3D grid is a total function `Pos → Char`; the Go code only ever reads
    it through bounds-checked accessors, and out-of-range cells stay '|'.
  * Mutation is modelled by explicit state passing: `Move`/`UnMove` return the
    new board, and the search drivers thread boards through their loops.
-/

/-- A 3D coordinate (x, y, z), possibly off the board. -/
abbrev Pos := Int × Int × Int

/-- The occupancy grid: '|' for empty, otherwise the byte that was played. -/
abbrev Grid := Pos → Char

/-- The four dimension parameters of a board. -/
structure Dims where
  length : Int
  width : Int
  height : Int
  winLength : Int

/-- Mirrors `Board.IsValidCoordinate`. -/
def isValidCoordinate (d : Dims) (p : Pos) : Prop :=
  0 ≤ p.1 ∧ p.1 < d.length ∧ 0 ≤ p.2.1 ∧ p.2.1 < d.width ∧ 0 ≤ p.2.2 ∧ p.2.2 < d.height

instance (d : Dims) (p : Pos) : Decidable (isValidCoordinate d p) := by
  unfold isValidCoordinate; infer_instance

/-- The 13 canonical direction vectors used by the printer, the evaluator and
the delta evaluator (first nonzero component positive). -/
def directions : List Pos :=
  [(1, 0, 0), (0, 1, 0), (0, 0, 1),
   (1, 1, 0), (1, -1, 0), (1, 0, 1), (1, 0, -1), (0, 1, 1), (0, 1, -1),
   (1, 1, 1), (1, -1, -1), (1, 1, -1), (1, -1, 1)]

/-- The cell `i` steps from `p` in direction `dir`. -/
def step (p dir : Pos) (i : Int) : Pos :=
  (p.1 + i * dir.1, p.2.1 + i * dir.2.1, p.2.2 + i * dir.2.2)

/-- The `winLength` cells of the segment starting at `start` in direction `dir`
(w clamps to 0 for nonpositive win lengths, where the Go loops run 0 times). -/
def lineCells (start dir : Pos) (w : Int) : List Pos :=
  (List.range w.toNat).map fun i : Nat => step start dir (i : Int)

/-- Mirrors `Board.GetLine`: the cell contents along a segment, or an all-'|'
line if any cell of the segment is off the board. -/
def getLine (d : Dims) (g : Grid) (start dir : Pos) : List Char :=
  if ∀ q ∈ lineCells start dir d.winLength, isValidCoordinate d q then
    (lineCells start dir d.winLength).map g
  else
    List.replicate d.winLength.toNat '|'

/-- Models `int(math.Pow(float64(base), float64(n)))`. -/
def powInt (base : Int) (n : Nat) : Int := base ^ n

/-- The score contribution of one segment, given its 'x' and 'o' counts:
`+base^xc` for a pure-x segment, `-base^oc` for a pure-o segment, else 0.
Mirrors the segment bodies of `Evaluate` and `DeltaEvaluate`. -/
def segScore (base w xc oc : Int) : Int :=
  if 0 < xc ∧ oc = 0 ∧ xc ≤ w then powInt base xc.toNat
  else if 0 < oc ∧ xc = 0 ∧ oc ≤ w then -powInt base oc.toNat
  else 0

/-- The score contribution of the segment at `(start, dir)` of grid `g`. -/
def lineScore (d : Dims) (base : Int) (g : Grid) (start dir : Pos) : Int :=
  let line := getLine d g start dir
  segScore base d.winLength (line.count 'x' : Int) (line.count 'o' : Int)

/-- The cells the `Evaluate` triple loop ranges over. -/
def cellsBox (d : Dims) : Finset Pos :=
  (Finset.Icc 0 (d.length - 1)) ×ˢ ((Finset.Icc 0 (d.width - 1)) ×ˢ (Finset.Icc 0 (d.height - 1)))

/-- Mirrors the pure computation of `Board.Evaluate`: for every cell and every
direction whose segment end stays on the board, add the segment score.
(`Evaluate` also stores the result into `Score`; see `Board.evaluate` below.) -/
def evalGrid (d : Dims) (base : Int) (g : Grid) : Int :=
  ∑ p ∈ cellsBox d,
    (directions.map fun dir =>
      if isValidCoordinate d (step p dir (d.winLength - 1)) then lineScore d base g p dir
      else 0).sum

/-- The Go loop `for offset := -(winLength - 1); offset <= 0; offset++`. -/
def offsetsList (w : Int) : List Int :=
  (List.range w.toNat).map fun i : Nat => (i : Int) - (w - 1)

/-- One (direction, offset) term of `DeltaEvaluate`'s score accumulation: skip
segments that leave the board, compute the segment score with the piece present,
and subtract the segment score with the played symbol's count decremented.
Segments are skipped entirely when the symbol at `p0` is not 'x'/'o'. -/
def deltaTerm (d : Dims) (base : Int) (g : Grid) (p0 dir : Pos) (offset : Int) : Int :=
  let start := step p0 dir offset
  if isValidCoordinate d start ∧ isValidCoordinate d (step start dir (d.winLength - 1)) then
    let line := getLine d g start dir
    let xa : Int := line.count 'x'
    let oa : Int := line.count 'o'
    let scoreAfter := segScore base d.winLength xa oa
    if g p0 = 'x' then scoreAfter - segScore base d.winLength (xa - 1) oa
    else if g p0 = 'o' then scoreAfter - segScore base d.winLength xa (oa - 1)
    else 0
  else 0

/-- The score delta returned by `Board.DeltaEvaluate` for the piece at `p0`
(the piece is already on the grid).  The Go loop accumulates `delta += ...`
over directions and offsets; addition being commutative, the sum of the terms
is the loop's result. -/
def deltaEvalScore (d : Dims) (base : Int) (g : Grid) (p0 : Pos) : Int :=
  (directions.map fun dir =>
    ((offsetsList d.winLength).map fun offset => deltaTerm d base g p0 dir offset).sum).sum

/-- One (direction, offset) step of `DeltaEvaluate`'s piggy-backed win update
(the `updateWin` branch): a full pure-x segment sets the winner to 'x', a full
pure-o segment to 'o', anything else keeps the current value. -/
def deltaWinStep (d : Dims) (g : Grid) (start dir : Pos) (pw : Char) : Char :=
  if isValidCoordinate d start ∧ isValidCoordinate d (step start dir (d.winLength - 1)) then
    let line := getLine d g start dir
    if (line.count 'x' : Int) = d.winLength ∧ line.count 'o' = 0 then 'x'
    else if (line.count 'o' : Int) = d.winLength ∧ line.count 'x' = 0 then 'o'
    else pw
  else pw

/-- The winner flag after `Board.DeltaEvaluate` ran with `updateWin = true`
for the piece at `p0`, starting from the current flag `pw`.  The Go loop walks
directions (outer) and offsets (inner) in order. -/
def deltaEvalWin (d : Dims) (g : Grid) (p0 : Pos) (pw : Char) : Char :=
  directions.foldl
    (fun pw dir =>
      (offsetsList d.winLength).foldl
        (fun pw offset => deltaWinStep d g (step p0 dir offset) dir pw) pw)
    pw

/-- The Go `int` extremes from constants.go (`MAX_INT = int(^uint(0) >> 1)`,
`MIN_INT = -MAX_INT - 1` on a 64-bit platform). -/
def maxInt : Int := 9223372036854775807

/-- See `maxInt`. -/
def minInt : Int := -9223372036854775808

/-- `MAX_INT / 2` with Go's truncating integer division. -/
def maxIntHalf : Int := 4611686018427387903

/-- `MIN_INT / 2` with Go's truncating integer division. -/
def minIntHalf : Int := -4611686018427387904

/-- A move string, modelled as its list of (ASCII) characters. -/
abbrev MoveStr := List Char

/-- The state of `Board` (board.go). -/
structure Board where
  length : Int
  width : Int
  height : Int
  winLength : Int
  grid : Grid
  currentHeights : Int → Int → Int
  lastMove : Pos
  score : Int
  base : Int
  playerWin : Char

/-- The dimension parameters of a board. -/
def Board.dims (b : Board) : Dims :=
  ⟨b.length, b.width, b.height, b.winLength⟩

/-- Two's-complement wrap-around of Go's 64-bit `int`: the representative of
`x` modulo `2^64` lying in `[-2^63, 2^63)`. -/
def wrap64 (x : Int) : Int :=
  (x + 9223372036854775808).emod 18446744073709551616 - 9223372036854775808

/-- The digit loop of `parseMove`: accumulate `row = row*10 + digit` with Go's
wrapping `int` arithmetic, failing on the first non-digit character. -/
def parseRowDigits : Int → List Char → Option Int
  | acc, [] => some acc
  | acc, c :: rest =>
    if '0' ≤ c ∧ c ≤ '9' then
      parseRowDigits (wrap64 (acc * 10 + ((c.toNat : Int) - 48))) rest
    else none

/-- Mirrors `parseMove`: strings shorter than 2 characters and strings with a
non-digit after the first character yield `(-1, -1)`; otherwise the column is
the first character's offset from 'A' and the row is the wrapping
64-bit accumulation of the remaining digits, decremented (`row--` also wraps,
which matters only when the accumulator ends at the minimum `int`). -/
def parseMove (s : MoveStr) : Int × Int :=
  match s with
  | c0 :: c1 :: rest =>
    match parseRowDigits 0 (c1 :: rest) with
    | some row => ((c0.toNat : Int) - 65, wrap64 (row - 1))
    | none => (-1, -1)
  | _ => (-1, -1)

/-- The successful branch of `Board.Move`: place the piece, bump the column
height, record the move, then add the delta and update the win flag via
`DeltaEvaluate(col, row, h, true)` run on the grid with the piece present. -/
def Board.movePlace (b : Board) (col row : Int) (player : Char) : Board :=
  let h := b.currentHeights col row
  let pos : Pos := (col, row, h)
  let g' : Grid := fun p => if p = pos then player else b.grid p
  { b with
    grid := g'
    currentHeights := fun c r => if c = col ∧ r = row then b.currentHeights c r + 1 else b.currentHeights c r
    lastMove := pos
    score := b.score + deltaEvalScore b.dims b.base g' pos
    playerWin := deltaEvalWin b.dims g' pos b.playerWin }

/-- Mirrors `Board.Move`: parse, bounds-check the column/row, reject a full
column, otherwise place via `movePlace`.  Returns the new board and the placed
coordinates (`(-1,-1,-1)` when rejected). -/
def Board.move (b : Board) (s : MoveStr) (player : Char) : Board × Pos :=
  if (parseMove s).1 < 0 ∨ b.length ≤ (parseMove s).1
      ∨ (parseMove s).2 < 0 ∨ b.width ≤ (parseMove s).2 then
    (b, (-1, -1, -1))
  else if b.height ≤ b.currentHeights (parseMove s).1 (parseMove s).2 then
    (b, (-1, -1, -1))
  else
    (b.movePlace (parseMove s).1 (parseMove s).2 player,
      ((parseMove s).1, (parseMove s).2, b.currentHeights (parseMove s).1 (parseMove s).2))

/-- The successful branch of `Board.UnMove`: compute the delta for the topmost
piece (still present, `updateWin = false`), remove it, subtract the delta and
reset the winner flag. -/
def Board.unMovePlace (b : Board) (col row : Int) : Board :=
  let top := b.currentHeights col row - 1
  let pos : Pos := (col, row, top)
  { b with
    grid := fun p => if p = pos then '|' else b.grid p
    currentHeights := fun c r => if c = col ∧ r = row then b.currentHeights c r - 1 else b.currentHeights c r
    score := b.score - deltaEvalScore b.dims b.base b.grid pos
    playerWin := '|' }

/-- Mirrors `Board.UnMove`. -/
def Board.unMove (b : Board) (s : MoveStr) : Board × Pos :=
  if (parseMove s).1 < 0 ∨ b.length ≤ (parseMove s).1
      ∨ (parseMove s).2 < 0 ∨ b.width ≤ (parseMove s).2 then
    (b, (-1, -1, -1))
  else if b.currentHeights (parseMove s).1 (parseMove s).2 ≤ 0 then
    (b, (-1, -1, -1))
  else
    (b.unMovePlace (parseMove s).1 (parseMove s).2,
      ((parseMove s).1, (parseMove s).2, b.currentHeights (parseMove s).1 (parseMove s).2 - 1))

/-- Mirrors `Board.CheckWin`. -/
def Board.checkWin (b : Board) : Char := b.playerWin

/-- Mirrors `Board.Evaluate`: recompute the full evaluation, store it into
`Score`, and return it.  (The returned value and the board after the write.) -/
def Board.evaluate (b : Board) : Int × Board :=
  let v := evalGrid b.dims b.base b.grid
  (v, { b with score := v })

/-- The move string `fmt.Sprintf("%c%d", 'A'+byte(i), j+1)`. -/
def moveString (i j : Int) : MoveStr :=
  Char.ofNat (65 + i.toNat) :: (Nat.repr (j + 1).toNat).toList

/-- Mirrors `Board.GetValidMoves`: the move strings of the non-full columns,
in column-major order. -/
def Board.getValidMoves (b : Board) : List MoveStr :=
  ((List.range b.length.toNat).map fun i : Nat =>
    (List.range b.width.toNat).filterMap fun j : Nat =>
      if b.currentHeights (i : Int) (j : Int) < b.height then some (moveString (i : Int) (j : Int))
      else none).flatten

/-- Mirrors `NewBoard` + `Board.Init` for explicit dimensions: an all-'|' grid,
all-zero heights, sentinel last move, score 0, evaluation base 10 (NewBoard
hard-wires `base = 10` — its 5th argument, when passed by `copyBoard`, is never
read) and no winner. -/
def mkEmptyBoard (length width height winLength : Int) : Board :=
  { length := length, width := width, height := height, winLength := winLength
    grid := fun _ => '|'
    currentHeights := fun _ _ => 0
    lastMove := (-1, -1, -1)
    score := 0
    base := 10
    playerWin := '|' }

/-- Mirrors `copyBoard` (board.go): a fresh `NewBoard` of the same dimensions
(so cells and heights outside the box revert to their initial values, and the
base is the hard-wired 10), with the grid, heights, last move, score and winner
copied cell by cell. -/
def copyBoard (b : Board) : Board :=
  { length := b.length, width := b.width, height := b.height, winLength := b.winLength
    grid := fun p => if isValidCoordinate b.dims p then b.grid p else '|'
    currentHeights := fun c r =>
      if 0 ≤ c ∧ c < b.length ∧ 0 ≤ r ∧ r < b.width then b.currentHeights c r else 0
    lastMove := b.lastMove
    score := b.score
    base := 10
    playerWin := b.playerWin }

/-- The boards reachable from a fresh empty board by `Move` and `UnMove` calls
with players restricted to 'x' and 'o' (arbitrary move strings: rejected calls
leave the board unchanged). -/
inductive Reachable : Board → Prop where
  | empty (length width height winLength : Int) :
      Reachable (mkEmptyBoard length width height winLength)
  | move {b : Board} (s : MoveStr) {p : Char} (hp : p = 'x' ∨ p = 'o') :
      Reachable b → Reachable (b.move s p).1
  | unmove {b : Board} (s : MoveStr) :
      Reachable b → Reachable (b.unMove s).1

/-- The boards reachable from a fresh empty board (with a positive win length)
by `Move` calls only, players restricted to 'x' and 'o'. -/
inductive MoveReachable : Board → Prop where
  | empty (length width height winLength : Int) (hw : 0 < winLength) :
      MoveReachable (mkEmptyBoard length width height winLength)
  | move {b : Board} (s : MoveStr) {p : Char} (hp : p = 'x' ∨ p = 'o') :
      MoveReachable b → MoveReachable (b.move s p).1

/-- The shared loop body of `naiveMinimax`, `minimax` (part_001) and the
powers-based `minimax` (minimaxBot.go): clone the board, apply the move,
recurse via `f`, and keep the strictly better (score, principal variation)
in the driver's direction. -/
def cloneLoop (f : Board → Int × List MoveStr) (isMax : Bool) (symbol : Char) (b : Board) :
    List MoveStr → Int × List MoveStr → Int × List MoveStr
  | [], acc => acc
  | m :: rest, acc =>
    let tb := ((copyBoard b).move m symbol).1
    let r := f tb
    let acc' :=
      if isMax = true ∧ acc.1 < r.1 then (r.1, m :: r.2)
      else if isMax = false ∧ r.1 < acc.1 then (r.1, m :: r.2)
      else acc
    cloneLoop f isMax symbol b rest acc'

/-- Mirrors `naiveMinimax` (naiveMinimaxBot.go): terminal short-circuit to
`±MAX_INT/2` on a set winner, full re-evaluation (`Evaluate`) at depth 0,
clone-and-move recursion over the valid moves.  Search depth is a `Nat`
(the bots are constructed with nonnegative depths). -/
def naiveMinimax : Nat → Board → Bool → Int × List MoveStr
  | depth, b, isMax =>
    if b.checkWin ≠ '|' then
      (if b.checkWin = 'x' then maxIntHalf else minIntHalf, [])
    else
      match depth with
      | 0 => ((b.evaluate).1, [])
      | d + 1 =>
        let symbol := if isMax then 'x' else 'o'
        let init : Int := if isMax then minInt else maxInt
        cloneLoop (fun tb => naiveMinimax d tb (!isMax)) isMax symbol b b.getValidMoves (init, [])

/-- Mirrors `minimax` (src/unnamed/part_001, the delta driver): the cached
`Score` at depth 0, clone-and-move recursion otherwise.  Note: no winner
check at any node. -/
def minimax : Nat → Board → Bool → Int × List MoveStr
  | 0, b, _ => (b.score, [])
  | d + 1, b, isMax =>
    let symbol := if isMax then 'x' else 'o'
    let init : Int := if isMax then minInt else maxInt
    cloneLoop (fun tb => minimax d tb (!isMax)) isMax symbol b b.getValidMoves (init, [])

/-- The segment body of `EvalExpo` (minimaxBot.go): precomputed powers indexed
by count, with an `count < len(powers)` guard instead of `count <= winLength`. -/
def segScoreExpo (powers : List Int) (xc oc : Nat) : Int :=
  if 0 < xc ∧ oc = 0 ∧ xc < powers.length then powers.getD xc 0
  else if 0 < oc ∧ xc = 0 ∧ oc < powers.length then -(powers.getD oc 0)
  else 0

/-- Mirrors `EvalExpo` (minimaxBot.go). -/
def evalExpo (b : Board) (powers : List Int) : Int :=
  ∑ p ∈ cellsBox b.dims,
    (directions.map fun dir =>
      if isValidCoordinate b.dims (step p dir (b.winLength - 1)) then
        let line := getLine b.dims b.grid p dir
        segScoreExpo powers (line.count 'x') (line.count 'o')
      else 0).sum

/-- The precomputed powers table of `NewMinimaxBot`/`NewConcurrentMinimaxBot`:
`powers[i] = base^i` for `i = 0..maxPower`. -/
def mkPowers (base : Int) (maxPower : Nat) : List Int :=
  (List.range (maxPower + 1)).map fun i : Nat => base ^ i

/-- Mirrors the four-argument `minimax` (minimaxBot.go): `EvalExpo` at depth 0,
clone-and-move recursion otherwise; no winner check. -/
def minimaxExpo : Nat → Board → Bool → List Int → Int × List MoveStr
  | 0, b, _, powers => (evalExpo b powers, [])
  | d + 1, b, isMax, powers =>
    let symbol := if isMax then 'x' else 'o'
    let init : Int := if isMax then minInt else maxInt
    cloneLoop (fun tb => minimaxExpo d tb (!isMax) powers) isMax symbol b b.getValidMoves (init, [])

/-- The move loop of `alphaBetaMinimax`, threading the mutated-and-reverted
board: apply the move, recurse with the current best score as the child's
threshold, revert, keep strict improvements, and break out of the loop when the
current score reaches the inherited threshold (`currentScore >= threshold` at a
maximising node, `currentScore <= threshold` at a minimising one). -/
def abLoop (f : Board → Bool → Int → (Int × List MoveStr) × Board) (isMax : Bool) (symbol : Char)
    (threshold : Int) :
    List MoveStr → Board → Int × List MoveStr → (Int × List MoveStr) × Board
  | [], b, acc => (acc, b)
  | m :: rest, b, acc =>
    let b1 := (b.move m symbol).1
    let r := f b1 (!isMax) acc.1
    let b2 := (r.2.unMove m).1
    if isMax then
      let acc' := if acc.1 < r.1.1 then (r.1.1, m :: r.1.2) else acc
      if threshold ≤ acc'.1 then (acc', b2)
      else abLoop f isMax symbol threshold rest b2 acc'
    else
      let acc' := if r.1.1 < acc.1 then (r.1.1, m :: r.1.2) else acc
      if acc'.1 ≤ threshold then (acc', b2)
      else abLoop f isMax symbol threshold rest b2 acc'

/-- Mirrors `alphaBetaMinimax` (alphaBetaMinimaxBot.go): winner short-circuit,
cached score at depth 0, then the threshold-pruned move loop over the valid
moves computed up front.  The board is mutated and reverted in place; the model
returns the final board alongside the (score, principal variation) result. -/
def alphaBetaMinimax : Nat → Board → Bool → Int → (Int × List MoveStr) × Board
  | depth, b, isMax, threshold =>
    if b.checkWin ≠ '|' then
      ((if b.checkWin = 'x' then maxIntHalf else minIntHalf, []), b)
    else
      match depth with
      | 0 => ((b.score, []), b)
      | d + 1 =>
        let symbol := if isMax then 'x' else 'o'
        let init : Int := if isMax then minInt else maxInt
        abLoop (fun b' im th => alphaBetaMinimax d b' im th) isMax symbol threshold
          b.getValidMoves b (init, [])

/-- The root threshold `MakeMove` passes to `alphaBetaMinimax` (and that
`ConcurrentAlphaBetaMinimaxBot.MakeMove` passes to the concurrent variant):
`MIN_INT` when the bot plays 'x' (maximising), `MAX_INT` otherwise. -/
def rootThreshold (isMax : Bool) : Int :=
  if isMax then minInt else maxInt

/-- A worker's result in the parallel drivers. -/
structure MoveResult where
  move : MoveStr
  score : Int

/-- The per-move worker of `concurrentMinimax` (concurrentMinimaxBot.go): clone
the board, apply the move, evaluate it with the sequential powers-based
`minimax` at depth-1. -/
def concurrentMinimaxWorker (b : Board) (depth : Nat) (isMax : Bool) (powers : List Int)
    (m : MoveStr) : MoveResult :=
  let symbol := if isMax then 'x' else 'o'
  ⟨m, (minimaxExpo (depth - 1) ((copyBoard b).move m symbol).1 (!isMax) powers).1⟩

/-- Models one run of `concurrentMinimax` (concurrentMinimaxBot.go).  Each
worker sends exactly one deterministic result; the goroutine scheduler only
chooses the order in which the parent receives them, so a run is determined by
an `arrival` permutation of the valid moves.  The Go function returns only the
chosen move; the model also exposes the internal best score the loop computes. -/
def concurrentMinimaxRun (b : Board) (depth : Nat) (isMax : Bool) (powers : List Int)
    (arrival : List MoveStr) : Int × MoveStr :=
  if b.getValidMoves.length = 0 then (if isMax then minInt else maxInt, [])
  else if b.getValidMoves.length = 1 then
    (if isMax then minInt else maxInt, b.getValidMoves.headD [])
  else
    (arrival.map (concurrentMinimaxWorker b depth isMax powers)).foldl
      (fun acc r =>
        if isMax = true ∧ acc.1 < r.score then (r.score, r.move)
        else if isMax = false ∧ r.score < acc.1 then (r.score, r.move)
        else acc)
      (if isMax then minInt else maxInt, b.getValidMoves.headD [])

/-- The result-consumption loop of `concurrentAlphaBetaMinimax`
(src/unnamed/part_002): consume results in arrival order, keep strict
improvements (recording only the immediate move), and cancel-and-break as soon
as the best score reaches the threshold. -/
def processResults (isMax : Bool) (threshold : Int) :
    List MoveResult → Int × List MoveStr → Int × List MoveStr
  | [], acc => acc
  | r :: rest, acc =>
    if isMax then
      if acc.1 < r.score then
        let acc' := (r.score, [r.move])
        if threshold ≤ r.score then acc' else processResults isMax threshold rest acc'
      else processResults isMax threshold rest acc
    else
      if r.score < acc.1 then
        let acc' := (r.score, [r.move])
        if r.score ≤ threshold then acc' else processResults isMax threshold rest acc'
      else processResults isMax threshold rest acc

/-- Models one run of `concurrentAlphaBetaMinimax` at the root (threshold from
`MakeMove`, `parentScore = nil`) under the legal schedule in which every worker
reads the shared score before any update reaches it (so every child inherits
the initial extreme score as its threshold) and all workers finish before the
parent starts consuming; the scheduler chooses only the arrival order.  With
root depth 3 each child call has `depth-1 = 2 <= 2`, so it falls through to the
sequential `alphaBetaMinimax` on the child board. -/
def concurrentABRootRun (b : Board) (depth : Nat) (isMax : Bool) (arrival : List MoveStr) :
    Int × List MoveStr :=
  let symbol := if isMax then 'x' else 'o'
  let init : Int := if isMax then minInt else maxInt
  let results := arrival.map fun m =>
    MoveResult.mk m ((alphaBetaMinimax (depth - 1) ((copyBoard b).move m symbol).1 (!isMax) init).1.1)
  processResults isMax (rootThreshold isMax) results (init, [])

/-- One tuple emitted by `concurrentAlphaBetaMinimaxStream`: the move, its
score, and whether this is the final result of the branch. -/
structure StreamResult where
  move : MoveStr
  score : Int
  final : Bool
deriving DecidableEq

/-- The result-consumption loop of `concurrentAlphaBetaMinimaxStream`
(alphaBetaMinimaxBot.go / src/unnamed/part_002), processing the tagged child
results in arrival order and returning the list of tuples the parent emits:
a strict improvement is emitted with `Final = false` and, if it reaches
`MAX_INT/3` (maximising) or `MIN_INT/3` (minimising), the children are
cancelled and the loop breaks; a result with `Final = true` removes its move
from the active set and the loop breaks once that set is empty; after the
loop one final tuple carrying the best score is emitted (at the root the
parent context is `Background`, so the emitting selects never abort). -/
def streamConsume (isMax : Bool) :
    List (MoveStr × Int × Bool) → Int → MoveStr → List MoveStr → List StreamResult
  | [], best, bestMove, _ => [⟨bestMove, best, true⟩]
  | (m, s, fin) :: rest, best, bestMove, active =>
    if (isMax = true ∧ best < s) ∨ (isMax = false ∧ s < best) then
      if (isMax = true ∧ maxInt.tdiv 3 ≤ s) ∨ (isMax = false ∧ s ≤ minInt.tdiv 3) then
        [⟨m, s, false⟩, ⟨m, s, true⟩]
      else
        if (if fin then active.erase m else active) = [] then
          [⟨m, s, false⟩, ⟨m, s, true⟩]
        else
          ⟨m, s, false⟩ ::
            streamConsume isMax rest s m (if fin then active.erase m else active)
    else
      if (if fin then active.erase m else active) = [] then
        [⟨bestMove, best, true⟩]
      else
        streamConsume isMax rest best bestMove (if fin then active.erase m else active)

/-- The emissions of a root call of `concurrentAlphaBetaMinimaxStream`
(`parentCtx = Background`, never cancelled): a set winner, depth 0 or no
valid moves emit a single final tuple; at most two valid moves or depth at
most 2 fall through to the sequential `alphaBetaMinimax` with the extreme
threshold of the call's own direction, emitting its first principal-variation
move and score as a single final tuple; otherwise the concurrent branch
consumes the tagged child results in the order fixed by `arrivals`. -/
def streamRootRun (depth : Nat) (b : Board) (isMax : Bool)
    (arrivals : List (MoveStr × Int × Bool)) : List StreamResult :=
  if b.checkWin ≠ '|' then
    [⟨[], if b.checkWin = 'x' then maxIntHalf else minIntHalf, true⟩]
  else if depth = 0 then
    [⟨[], b.score, true⟩]
  else if b.getValidMoves.length = 0 then
    [⟨[], b.score, true⟩]
  else if b.getValidMoves.length ≤ 2 ∨ depth ≤ 2 then
    [⟨(alphaBetaMinimax depth b isMax (rootThreshold isMax)).1.2.headD [],
      (alphaBetaMinimax depth b isMax (rootThreshold isMax)).1.1, true⟩]
  else
    streamConsume isMax arrivals (if isMax then minInt else maxInt) [] b.getValidMoves

/-- The tagged child results reaching the parent's consumption loop under the
schedule in which the children complete one after another in the order
`order`: each worker clones the board, applies its move, runs the child
stream at `depth - 1` in the flipped direction, and forwards every child
emission tagged with the move until the child's final tuple.  When `depth - 1`
falls into the sequential fallback (as in every instance proved below) the
child emits exactly one final tuple, so these sequences — one tagged triple
per child, in an arbitrary order — are exactly the arrival sequences the
buffered `childResults` channel can present, and the child's own `arrivals`
argument (passed as `[]`) is never consulted. -/
def streamChildArrivals (depth : Nat) (b : Board) (isMax : Bool)
    (order : List MoveStr) : List (MoveStr × Int × Bool) :=
  order.flatMap fun m =>
    (streamRootRun (depth - 1) ((copyBoard b).move m (if isMax then 'x' else 'o')).1
        (!isMax) []).map
      fun r => (m, r.score, r.final)

/-- The grid with the cell at `p0` cleared back to '|'. -/
def clearAt (g : Grid) (p0 : Pos) : Grid :=
  fun p => if p = p0 then '|' else g p

/-- The state invariant of a board: the cached score is a full recomputation,
and every in-range column is a contiguous bottom-up stack of player pieces of
the recorded height. -/
def WF (b : Board) : Prop :=
  b.score = evalGrid b.dims b.base b.grid ∧
  ∀ c r : Int, 0 ≤ c → c < b.length → 0 ≤ r → r < b.width →
    0 ≤ b.currentHeights c r ∧
    (∀ z : Int, 0 ≤ z → z < b.currentHeights c r →
      b.grid (c, r, z) = 'x' ∨ b.grid (c, r, z) = 'o') ∧
    (∀ z : Int, b.currentHeights c r ≤ z → b.grid (c, r, z) = '|')

/-- The segment starting at `start` in direction `dir` lies on the board and
holds only `c`. -/
def segWinAt (d : Dims) (g : Grid) (start dir : Pos) (c : Char) : Prop :=
  isValidCoordinate d start ∧
  isValidCoordinate d (step start dir (d.winLength - 1)) ∧
  (∀ q ∈ lineCells start dir d.winLength, isValidCoordinate d q) ∧
  ∀ q ∈ lineCells start dir d.winLength, g q = c

instance (d : Dims) (g : Grid) (start dir : Pos) (c : Char) :
    Decidable (segWinAt d g start dir c) := by
  unfold segWinAt; infer_instance

/-- Some winning segment for `c` passes through the cell `p0` (phrased along
the delta evaluator's (direction, offset) enumeration). -/
def winThrough (d : Dims) (g : Grid) (p0 : Pos) (c : Char) : Prop :=
  ∃ dir ∈ directions, ∃ offset ∈ offsetsList d.winLength,
    segWinAt d g (step p0 dir offset) dir c

instance (d : Dims) (g : Grid) (p0 : Pos) (c : Char) :
    Decidable (winThrough d g p0 c) := by
  unfold winThrough; infer_instance

/-- A fresh full line scan: some segment of `winLength` colinear cells in one
of the 13 directions holds only `c`. -/
def hasWinSeg (d : Dims) (g : Grid) (c : Char) : Prop :=
  ∃ dir ∈ directions, ∃ start ∈ cellsBox d, segWinAt d g start dir c

instance (d : Dims) (g : Grid) (c : Char) : Decidable (hasWinSeg d g c) := by
  unfold hasWinSeg; infer_instance

/-- The winner-flag part of the claim that `CheckWin` matches a fresh line
scan, as far as the code actually guarantees it: '|' exactly when no winning
segment exists, and a non-'|' flag always points at a real winning segment for
that player (when both players own winning segments the flag holds the most
recently completed one, so the converse direction fails). -/
def WinInv (b : Board) : Prop :=
  (b.playerWin = '|' ↔ ¬hasWinSeg b.dims b.grid 'x' ∧ ¬hasWinSeg b.dims b.grid 'o') ∧
  (b.playerWin = 'x' → hasWinSeg b.dims b.grid 'x') ∧
  (b.playerWin = 'o' → hasWinSeg b.dims b.grid 'o')

/-- The mathematical (unbounded) decimal value of a digit string; this is the
"decimal number" the spec's grammar speaks about. -/
def digitsVal (ds : List Char) : Int :=
  ds.foldl (fun a c => a * 10 + ((c.toNat : Int) - 48)) 0

/-- The value Go's wrapping `int` accumulator `row = row*10 + digit` holds
after scanning a digit string, i.e. the decimal value wrapped into
`[-2^63, 2^63)` at every step. -/
def digitsValWrap (ds : List Char) : Int :=
  ds.foldl (fun a c => wrap64 (a * 10 + ((c.toNat : Int) - 48))) 0

/-- The move strings `Move`/`UnMove` actually accept on board `b`: at least
two characters, every character after the first an ASCII digit (leading zeros
allowed), the first character's offset from 'A' within `[0, length)` (the
character itself need not be a letter) and the wrapping 64-bit accumulation of
the digits, decremented with wrap, within `[0, width)`.  For digit strings
whose decimal value fits in an `int64` this last condition is just "decimal
value within `[1, width]`", but a string such as "A18446744073709551617"
(2^64 + 1) wraps to row value 1 and is accepted. -/
def matchesLooseGrammar (b : Board) (s : MoveStr) : Prop :=
  match s with
  | c0 :: c1 :: rest =>
    (∀ c ∈ c1 :: rest, '0' ≤ c ∧ c ≤ '9') ∧
    0 ≤ (c0.toNat : Int) - 65 ∧ (c0.toNat : Int) - 65 < b.length ∧
    0 ≤ wrap64 (digitsValWrap (c1 :: rest) - 1) ∧
    wrap64 (digitsValWrap (c1 :: rest) - 1) < b.width
  | _ => False

instance (b : Board) (s : MoveStr) : Decidable (matchesLooseGrammar b s) := by
  unfold matchesLooseGrammar
  match s with
  | [] => exact inferInstanceAs (Decidable False)
  | [_] => exact inferInstanceAs (Decidable False)
  | _ :: _ :: _ => exact inferInstanceAs (Decidable (_ ∧ _))

/-- Modelled from the spec's words: the move-string grammar
`^[A-Z][1-9][0-9]*$` with the letter offset within `[0, length)` and the
decimal number within `[1, width]` (spec §6).  Kept separate from
`matchesLooseGrammar`, which describes what the code accepts. -/
def matchesSpecGrammar (b : Board) (s : MoveStr) : Prop :=
  match s with
  | c0 :: c1 :: rest =>
    'A' ≤ c0 ∧ c0 ≤ 'Z' ∧ '1' ≤ c1 ∧ c1 ≤ '9' ∧ (∀ c ∈ rest, '0' ≤ c ∧ c ≤ '9') ∧
    0 ≤ (c0.toNat : Int) - 65 ∧ (c0.toNat : Int) - 65 < b.length ∧
    1 ≤ digitsVal (c1 :: rest) ∧ digitsVal (c1 :: rest) ≤ b.width
  | _ => False

instance (b : Board) (s : MoveStr) : Decidable (matchesSpecGrammar b s) := by
  unfold matchesSpecGrammar
  match s with
  | [] => exact inferInstanceAs (Decidable False)
  | [_] => exact inferInstanceAs (Decidable False)
  | _ :: _ :: _ => exact inferInstanceAs (Decidable (_ ∧ _))

/-- `NewBoard(1)`: the degenerate 1×1×1 board with win length 1. -/
def exUnitBoard : Board := mkEmptyBoard 1 1 1 1

/-- `NewBoard(3, 1, 1, 2)`: a 3×1×1 strip with win length 2; its three columns
are ordered A1 < B1 < C1 and the centre column belongs to two segments while
the outer ones belong to one each. -/
def exRowBoard : Board := mkEmptyBoard 3 1 1 2

/-- `NewBoard(2)`: the 2×2×2 board with win length 2. -/
def exCubeBoard : Board := mkEmptyBoard 2 2 2 2

/-- `NewBoard()`: the default 4×4×4 board with win length 4. -/
def exDefaultBoard : Board := mkEmptyBoard 4 4 4 4

/-- The move string "A1". -/
def mvA1 : MoveStr := ['A', '1']

/-- The move string "B1". -/
def mvB1 : MoveStr := ['B', '1']

/-- The move string "C1". -/
def mvC1 : MoveStr := ['C', '1']

/-- The move string "A01" (same column and row as "A1", but with a leading
zero, so it does not match the spec's `^[A-Z][1-9][0-9]*$`). -/
def mvA01 : MoveStr := ['A', '0', '1']

/-- The move string "A18446744073709551617": its decimal part is `2^64 + 1`,
which Go's wrapping `int` accumulator turns into row value 1. -/
def mvWrap : MoveStr :=
  ['A', '1', '8', '4', '4', '6', '7', '4', '4', '0', '7', '3', '7', '0', '9',
   '5', '5', '1', '6', '1', '7']

/-- A move-only history on the 2×2×2 board in which x completes the A1 column
and o then completes the B1 column: both players own a winning segment. -/
def exDoubleWinBoard : Board :=
  (((((exCubeBoard.move mvA1 'x').1.move mvA1 'x').1.move mvB1 'o').1.move mvB1 'o').1)

/-! ### Geometry of segments -/

theorem step_zero (p dir : Pos) : step p dir 0 = p := by
  simp [step]

theorem step_step (p dir : Pos) (a b : Int) :
    step (step p dir a) dir b = step p dir (a + b) := by
  simp only [step, Prod.mk.injEq]
  refine ⟨by ring, by ring, by ring⟩

theorem step_left_inj {p dir : Pos} (hd0 : dir ≠ ((0, 0, 0) : Pos)) {a b : Int}
    (h : step p dir a = step p dir b) : a = b := by
  simp only [step, Prod.mk.injEq] at h
  obtain ⟨h1, h2, h3⟩ := h
  by_contra hab
  apply hd0
  have e1 : (a - b) * dir.1 = 0 := by linarith [h1]
  have e2 : (a - b) * dir.2.1 = 0 := by linarith [h2]
  have e3 : (a - b) * dir.2.2 = 0 := by linarith [h3]
  have hab' : a - b ≠ 0 := sub_ne_zero_of_ne hab
  have d1 : dir.1 = 0 := by
    rcases mul_eq_zero.mp e1 with h | h
    · exact absurd h hab'
    · exact h
  have d2 : dir.2.1 = 0 := by
    rcases mul_eq_zero.mp e2 with h | h
    · exact absurd h hab'
    · exact h
  have d3 : dir.2.2 = 0 := by
    rcases mul_eq_zero.mp e3 with h | h
    · exact absurd h hab'
    · exact h
  exact Prod.ext d1 (Prod.ext d2 d3)

theorem mem_lineCells {q start dir : Pos} {w : Int} :
    q ∈ lineCells start dir w ↔ ∃ i : Nat, i < w.toNat ∧ q = step start dir (i : Int) := by
  unfold lineCells
  rw [List.mem_map]
  constructor
  · rintro ⟨i, hi, rfl⟩
    exact ⟨i, List.mem_range.mp hi, rfl⟩
  · rintro ⟨i, hi, rfl⟩
    exact ⟨i, List.mem_range.mpr hi, rfl⟩

theorem lineCells_length (start dir : Pos) (w : Int) :
    (lineCells start dir w).length = w.toNat := by
  unfold lineCells
  rw [List.length_map, List.length_range]

theorem lineCells_nodup (start : Pos) {dir : Pos} (hd0 : dir ≠ ((0, 0, 0) : Pos)) (w : Int) :
    (lineCells start dir w).Nodup := by
  unfold lineCells
  refine List.Nodup.map ?_ (List.nodup_range _)
  intro a b hab
  have : (a : Int) = (b : Int) := step_left_inj hd0 hab
  exact_mod_cast this

theorem mem_offsetsList {o w : Int} :
    o ∈ offsetsList w ↔ 1 - w ≤ o ∧ o ≤ 0 ∧ 0 < w := by
  unfold offsetsList
  rw [List.mem_map]
  constructor
  · rintro ⟨j, hj, rfl⟩
    have := List.mem_range.mp hj
    omega
  · rintro ⟨h1, h2, h3⟩
    refine ⟨(o + w - 1).toNat, List.mem_range.mpr ?_, ?_⟩ <;> omega

theorem mem_cellsBox {d : Dims} {p : Pos} :
    p ∈ cellsBox d ↔ isValidCoordinate d p := by
  obtain ⟨x, y, z⟩ := p
  simp only [cellsBox, isValidCoordinate, Finset.mem_product, Finset.mem_Icc]
  omega

theorem coord_in_range {n s dv w i : Int} (hdv : dv = -1 ∨ dv = 0 ∨ dv = 1)
    (hs0 : 0 ≤ s) (hsn : s < n) (he0 : 0 ≤ s + (w - 1) * dv) (hen : s + (w - 1) * dv < n)
    (hi0 : 0 ≤ i) (hiw : i ≤ w - 1) : 0 ≤ s + i * dv ∧ s + i * dv < n := by
  rcases hdv with h | h | h <;> subst h <;> constructor <;> nlinarith

/-- Segments whose both ends are on the board lie entirely on the board, for
direction vectors with components in {-1, 0, 1} (box convexity). -/
theorem seg_cells_valid {d : Dims} {start dir : Pos}
    (hdx : dir.1 = -1 ∨ dir.1 = 0 ∨ dir.1 = 1)
    (hdy : dir.2.1 = -1 ∨ dir.2.1 = 0 ∨ dir.2.1 = 1)
    (hdz : dir.2.2 = -1 ∨ dir.2.2 = 0 ∨ dir.2.2 = 1)
    (hs : isValidCoordinate d start)
    (he : isValidCoordinate d (step start dir (d.winLength - 1))) :
    ∀ q ∈ lineCells start dir d.winLength, isValidCoordinate d q := by
  intro q hq
  rw [mem_lineCells] at hq
  obtain ⟨i, hi, rfl⟩ := hq
  obtain ⟨hs1, hs2, hs3, hs4, hs5, hs6⟩ := hs
  obtain ⟨he1, he2, he3, he4, he5, he6⟩ := he
  have hi0 : (0 : Int) ≤ (i : Int) := Int.natCast_nonneg i
  have hiw : (i : Int) ≤ d.winLength - 1 := by omega
  obtain ⟨c1, c2⟩ := coord_in_range hdx hs1 hs2 he1 he2 hi0 hiw
  obtain ⟨c3, c4⟩ := coord_in_range hdy hs3 hs4 he3 he4 hi0 hiw
  obtain ⟨c5, c6⟩ := coord_in_range hdz hs5 hs6 he5 he6 hi0 hiw
  exact ⟨c1, c2, c3, c4, c5, c6⟩

theorem getLine_eq_map {d : Dims} {g : Grid} {start dir : Pos}
    (h : ∀ q ∈ lineCells start dir d.winLength, isValidCoordinate d q) :
    getLine d g start dir = (lineCells start dir d.winLength).map g := by
  unfold getLine
  exact if_pos h

/-- The component facts about the 13 direction vectors the segment lemmas need. -/
theorem directions_facts :
    ∀ dir ∈ directions,
      (dir.1 = -1 ∨ dir.1 = 0 ∨ dir.1 = 1) ∧
      (dir.2.1 = -1 ∨ dir.2.1 = 0 ∨ dir.2.1 = 1) ∧
      (dir.2.2 = -1 ∨ dir.2.2 = 0 ∨ dir.2.2 = 1) ∧
      dir ≠ ((0, 0, 0) : Pos) := by
  decide

/-! ### Counting pieces on a segment after clearing one cell -/

theorem clearAt_apply_self (g : Grid) (p0 : Pos) : clearAt g p0 p0 = '|' := by
  simp [clearAt]

theorem clearAt_apply_ne (g : Grid) {p0 q : Pos} (h : q ≠ p0) : clearAt g p0 q = g q := by
  simp [clearAt, h]

theorem count_map_clearAt {g : Grid} {p0 : Pos} {c : Char} (hc : c ≠ '|') :
    ∀ {cells : List Pos}, cells.Nodup → p0 ∈ cells →
      ((cells.map (clearAt g p0)).count c : Int)
        = ((cells.map g).count c : Int) - (if g p0 = c then 1 else 0) := by
  intro cells
  induction cells with
  | nil => intro _ hmem; cases hmem
  | cons q t ih =>
    intro hnd hmem
    have hndt : t.Nodup := (List.nodup_cons.mp hnd).2
    have hqt : q ∉ t := (List.nodup_cons.mp hnd).1
    rw [List.map_cons, List.map_cons, List.count_cons, List.count_cons]
    rcases List.mem_cons.mp hmem with rfl | hmemt
    · have ht : t.map (clearAt g p0) = t.map g := by
        apply List.map_congr_left
        intro a ha
        exact clearAt_apply_ne g (fun h => hqt (h ▸ ha))
      have hbot : ('|' == c) = false := by
        rcases h : ('|' == c) with _ | _
        · rfl
        · exact absurd (beq_iff_eq.mp h).symm hc
      rw [ht, clearAt_apply_self, hbot]
      push_cast
      by_cases hg : g p0 = c
      · simp only [beq_iff_eq.mpr hg, if_pos hg]
        simp
      · simp only [beq_eq_false_iff_ne.mpr hg, if_neg hg]
        simp
    · have hq : q ≠ p0 := fun h => hqt (h ▸ hmemt)
      rw [clearAt_apply_ne g hq]
      push_cast
      rw [ih hndt hmemt]
      ring

/-! ### Sum manipulation helpers -/

theorem sum_finset_list_swap {α β : Type} (s : Finset β) (l : List α) (f : α → β → Int) :
    ∑ p ∈ s, (l.map fun a => f a p).sum = (l.map fun a => ∑ p ∈ s, f a p).sum := by
  induction l with
  | nil => simp
  | cons a t ih =>
    simp only [List.map_cons, List.sum_cons, Finset.sum_add_distrib, ih]

theorem list_map_sum_sub {α : Type} (l : List α) (f h : α → Int) :
    (l.map f).sum - (l.map h).sum = (l.map fun a => f a - h a).sum := by
  induction l with
  | nil => simp
  | cons a t ih =>
    simp only [List.map_cons, List.sum_cons]
    omega

/-! ### Segments through a fixed cell -/

theorem start_mem_iff {p0 start : Pos} {dir : Pos} {w : Int} :
    (∃ off ∈ offsetsList w, start = step p0 dir off) ↔ p0 ∈ lineCells start dir w := by
  constructor
  · rintro ⟨off, hoff, rfl⟩
    rw [mem_offsetsList] at hoff
    rw [mem_lineCells]
    refine ⟨(-off).toNat, by omega, ?_⟩
    rw [step_step]
    have he : off + ((-off).toNat : Int) = 0 := by omega
    rw [he, step_zero]
  · intro hp
    rw [mem_lineCells] at hp
    obtain ⟨i, hi, hq⟩ := hp
    refine ⟨-(i : Int), ?_, ?_⟩
    · rw [mem_offsetsList]
      omega
    · rw [hq, step_step]
      have he : (i : Int) + -(i : Int) = 0 := by ring
      rw [he, step_zero]

theorem getLine_clearAt_of_not_mem {d : Dims} {g : Grid} {p0 start dir : Pos}
    (h : p0 ∉ lineCells start dir d.winLength) :
    getLine d (clearAt g p0) start dir = getLine d g start dir := by
  unfold getLine
  split
  · apply List.map_congr_left
    intro q hq
    exact clearAt_apply_ne g (fun he => h (he ▸ hq))
  · rfl

theorem lineScore_clearAt_of_not_mem {d : Dims} {base : Int} {g : Grid} {p0 start dir : Pos}
    (h : p0 ∉ lineCells start dir d.winLength) :
    lineScore d base (clearAt g p0) start dir = lineScore d base g start dir := by
  unfold lineScore
  rw [getLine_clearAt_of_not_mem h]

/-- On a fully-on-board segment through `p0`, `DeltaEvaluate`'s count-decrement
reconstruction of the pre-move segment score is exactly the score of the
segment with the cell cleared. -/
theorem deltaTerm_eq_of_valid {d : Dims} {base : Int} {g : Grid} {p0 dir : Pos} {off : Int}
    (hdx : dir.1 = -1 ∨ dir.1 = 0 ∨ dir.1 = 1)
    (hdy : dir.2.1 = -1 ∨ dir.2.1 = 0 ∨ dir.2.1 = 1)
    (hdz : dir.2.2 = -1 ∨ dir.2.2 = 0 ∨ dir.2.2 = 1)
    (hd0 : dir ≠ ((0, 0, 0) : Pos))
    (hsym : g p0 = 'x' ∨ g p0 = 'o')
    (hs : isValidCoordinate d (step p0 dir off))
    (he : isValidCoordinate d (step (step p0 dir off) dir (d.winLength - 1)))
    (hmem : p0 ∈ lineCells (step p0 dir off) dir d.winLength) :
    deltaTerm d base g p0 dir off
      = lineScore d base g (step p0 dir off) dir
        - lineScore d base (clearAt g p0) (step p0 dir off) dir := by
  have hvalid := seg_cells_valid hdx hdy hdz hs he
  have hnd := lineCells_nodup (step p0 dir off) hd0 d.winLength
  have hline : getLine d g (step p0 dir off) dir
      = (lineCells (step p0 dir off) dir d.winLength).map g := getLine_eq_map hvalid
  have hline' : getLine d (clearAt g p0) (step p0 dir off) dir
      = (lineCells (step p0 dir off) dir d.winLength).map (clearAt g p0) := getLine_eq_map hvalid
  simp only [deltaTerm, lineScore, if_pos (And.intro hs he), hline, hline']
  rcases hsym with hx | ho
  · rw [if_pos hx]
    have hcx : ((lineCells (step p0 dir off) dir d.winLength).map (clearAt g p0)).count 'x'
        = (((lineCells (step p0 dir off) dir d.winLength).map g).count 'x' : Int) - 1 := by
      rw [count_map_clearAt (by decide) hnd hmem, hx]
      simp
    have hco : ((lineCells (step p0 dir off) dir d.winLength).map (clearAt g p0)).count 'o'
        = (((lineCells (step p0 dir off) dir d.winLength).map g).count 'o' : Int) := by
      rw [count_map_clearAt (by decide) hnd hmem, hx]
      simp
    rw [hcx, hco]
  · rw [if_neg (by rw [ho]; decide), if_pos ho]
    have hcx : ((lineCells (step p0 dir off) dir d.winLength).map (clearAt g p0)).count 'x'
        = (((lineCells (step p0 dir off) dir d.winLength).map g).count 'x' : Int) := by
      rw [count_map_clearAt (by decide) hnd hmem, ho]
      simp
    have hco : ((lineCells (step p0 dir off) dir d.winLength).map (clearAt g p0)).count 'o'
        = (((lineCells (step p0 dir off) dir d.winLength).map g).count 'o' : Int) - 1 := by
      rw [count_map_clearAt (by decide) hnd hmem, ho]
      simp
    rw [hcx, hco]

theorem offsetsList_nodup (w : Int) : (offsetsList w).Nodup := by
  unfold offsetsList
  refine List.Nodup.map ?_ (List.nodup_range _)
  intro a b hab
  have h2 : (a : Int) - (w - 1) = (b : Int) - (w - 1) := hab
  omega

/-- Per direction, the delta evaluator's offset sum for the cell `p0` equals
the difference of the full evaluator's per-direction sums before and after
clearing `p0`: segments not through `p0` cancel, and the segments through `p0`
are exactly the valid offsets `-(winLength-1) .. 0`. -/
theorem deltaDir_eq (d : Dims) (base : Int) (g : Grid) (p0 : Pos) {dir : Pos}
    (hdx : dir.1 = -1 ∨ dir.1 = 0 ∨ dir.1 = 1)
    (hdy : dir.2.1 = -1 ∨ dir.2.1 = 0 ∨ dir.2.1 = 1)
    (hdz : dir.2.2 = -1 ∨ dir.2.2 = 0 ∨ dir.2.2 = 1)
    (hd0 : dir ≠ ((0, 0, 0) : Pos))
    (hsym : g p0 = 'x' ∨ g p0 = 'o') :
    ((offsetsList d.winLength).map fun offset => deltaTerm d base g p0 dir offset).sum
      = (∑ p ∈ cellsBox d, if isValidCoordinate d (step p dir (d.winLength - 1))
            then lineScore d base g p dir else 0)
        - ∑ p ∈ cellsBox d, if isValidCoordinate d (step p dir (d.winLength - 1))
            then lineScore d base (clearAt g p0) p dir else 0 := by
  rw [← Finset.sum_sub_distrib]
  have hsummand : ∀ p ∈ cellsBox d,
      ((if isValidCoordinate d (step p dir (d.winLength - 1))
          then lineScore d base g p dir else 0)
        - (if isValidCoordinate d (step p dir (d.winLength - 1))
            then lineScore d base (clearAt g p0) p dir else 0))
        = if isValidCoordinate d (step p dir (d.winLength - 1)) ∧ p0 ∈ lineCells p dir d.winLength
            then lineScore d base g p dir - lineScore d base (clearAt g p0) p dir else 0 := by
    intro p _
    by_cases hP : isValidCoordinate d (step p dir (d.winLength - 1))
    · by_cases hmem : p0 ∈ lineCells p dir d.winLength
      · rw [if_pos hP, if_pos hP, if_pos ⟨hP, hmem⟩]
      · rw [if_pos hP, if_pos hP, if_neg (fun h => hmem h.2),
          lineScore_clearAt_of_not_mem hmem]
        ring
    · rw [if_neg hP, if_neg hP, if_neg (fun h => hP h.1)]
      ring
  rw [Finset.sum_congr rfl hsummand]
  have hterm : ∀ off ∈ offsetsList d.winLength,
      deltaTerm d base g p0 dir off
        = if isValidCoordinate d (step p0 dir off)
              ∧ isValidCoordinate d (step (step p0 dir off) dir (d.winLength - 1))
            then lineScore d base g (step p0 dir off) dir
              - lineScore d base (clearAt g p0) (step p0 dir off) dir
            else 0 := by
    intro off hoff
    by_cases hv : isValidCoordinate d (step p0 dir off)
        ∧ isValidCoordinate d (step (step p0 dir off) dir (d.winLength - 1))
    · rw [if_pos hv]
      have hmem : p0 ∈ lineCells (step p0 dir off) dir d.winLength :=
        start_mem_iff.mp ⟨off, hoff, rfl⟩
      exact deltaTerm_eq_of_valid hdx hdy hdz hd0 hsym hv.1 hv.2 hmem
    · rw [if_neg hv]
      simp only [deltaTerm, if_neg hv]
  rw [List.map_congr_left hterm]
  have hinj : ∀ x ∈ (offsetsList d.winLength).toFinset,
      ∀ y ∈ (offsetsList d.winLength).toFinset,
      step p0 dir x = step p0 dir y → x = y :=
    fun x _ y _ h => step_left_inj hd0 h
  rw [← List.sum_toFinset _ (offsetsList_nodup d.winLength)]
  have himg : (∑ start ∈ (offsetsList d.winLength).toFinset.image (fun off => step p0 dir off),
        if isValidCoordinate d start ∧ isValidCoordinate d (step start dir (d.winLength - 1))
          then lineScore d base g start dir - lineScore d base (clearAt g p0) start dir
          else 0)
      = ∑ a ∈ (offsetsList d.winLength).toFinset,
          if isValidCoordinate d (step p0 dir a)
              ∧ isValidCoordinate d (step (step p0 dir a) dir (d.winLength - 1))
            then lineScore d base g (step p0 dir a) dir
              - lineScore d base (clearAt g p0) (step p0 dir a) dir
            else 0 :=
    Finset.sum_image hinj
  rw [← himg]
  rw [← Finset.sum_filter]
  rw [← Finset.sum_filter]
  apply Finset.sum_congr ?_ (fun _ _ => rfl)
  ext start
  simp only [Finset.mem_filter, Finset.mem_image, List.mem_toFinset, mem_cellsBox]
  constructor
  · rintro ⟨⟨off, hoff, heq⟩, hvS, hvE⟩
    exact ⟨hvS, hvE, start_mem_iff.mp ⟨off, hoff, heq.symm⟩⟩
  · rintro ⟨hvS, hvE, hmem⟩
    obtain ⟨off, hoff, heq⟩ := start_mem_iff.mpr hmem
    exact ⟨⟨off, hoff, heq.symm⟩, hvS, hvE⟩

/-- Exactness of the delta evaluator: for a piece of either player already on
the grid at `p0`, `DeltaEvaluate`'s score delta is precisely the difference
between the full evaluation of the grid and the full evaluation of the grid
with that cell cleared. -/
theorem deltaEvalScore_eq (d : Dims) (base : Int) (g : Grid) (p0 : Pos)
    (hsym : g p0 = 'x' ∨ g p0 = 'o') :
    deltaEvalScore d base g p0 = evalGrid d base g - evalGrid d base (clearAt g p0) := by
  unfold evalGrid deltaEvalScore
  rw [sum_finset_list_swap, sum_finset_list_swap, list_map_sum_sub]
  apply congrArg List.sum
  apply List.map_congr_left
  intro dir hdir
  obtain ⟨hdx, hdy, hdz, hd0⟩ := directions_facts dir hdir
  exact deltaDir_eq d base g p0 hdx hdy hdz hd0 hsym

/-- A segment of blanks contributes nothing. -/
theorem segScore_blank {base w : Int} {l : List Char} (hl : ∀ c ∈ l, c = '|') :
    segScore base w ((l.count 'x' : Int)) ((l.count 'o' : Int)) = 0 := by
  have hx : l.count 'x' = 0 := by
    rw [List.count_eq_zero]
    intro hmem
    exact absurd (hl _ hmem) (by decide)
  have ho : l.count 'o' = 0 := by
    rw [List.count_eq_zero]
    intro hmem
    exact absurd (hl _ hmem) (by decide)
  rw [hx, ho]
  unfold segScore
  norm_num

/-- The full evaluation of the all-empty grid is 0. -/
theorem evalGrid_blank (d : Dims) (base : Int) : evalGrid d base (fun _ => '|') = 0 := by
  unfold evalGrid
  apply Finset.sum_eq_zero
  intro p _
  apply List.sum_eq_zero
  intro v hv
  rw [List.mem_map] at hv
  obtain ⟨dir, _, rfl⟩ := hv
  split
  · unfold lineScore getLine
    split
    · apply segScore_blank
      intro c hc
      rw [List.mem_map] at hc
      obtain ⟨q, _, rfl⟩ := hc
      rfl
    · apply segScore_blank
      intro c hc
      exact (List.eq_of_mem_replicate hc)
  · rfl

/-! ### Field computation lemmas for the board operations -/

theorem movePlace_grid (b : Board) (col row : Int) (p : Char) :
    (b.movePlace col row p).grid
      = fun q => if q = (col, row, b.currentHeights col row) then p else b.grid q := rfl

theorem movePlace_heights (b : Board) (col row : Int) (p : Char) :
    (b.movePlace col row p).currentHeights
      = fun c r => if c = col ∧ r = row then b.currentHeights c r + 1
          else b.currentHeights c r := rfl

theorem movePlace_lastMove (b : Board) (col row : Int) (p : Char) :
    (b.movePlace col row p).lastMove = (col, row, b.currentHeights col row) := rfl

theorem movePlace_score (b : Board) (col row : Int) (p : Char) :
    (b.movePlace col row p).score
      = b.score + deltaEvalScore b.dims b.base
          (fun q => if q = (col, row, b.currentHeights col row) then p else b.grid q)
          (col, row, b.currentHeights col row) := rfl

theorem movePlace_playerWin (b : Board) (col row : Int) (p : Char) :
    (b.movePlace col row p).playerWin
      = deltaEvalWin b.dims
          (fun q => if q = (col, row, b.currentHeights col row) then p else b.grid q)
          (col, row, b.currentHeights col row) b.playerWin := rfl

theorem unMovePlace_grid (b : Board) (col row : Int) :
    (b.unMovePlace col row).grid
      = clearAt b.grid (col, row, b.currentHeights col row - 1) := rfl

theorem unMovePlace_heights (b : Board) (col row : Int) :
    (b.unMovePlace col row).currentHeights
      = fun c r => if c = col ∧ r = row then b.currentHeights c r - 1
          else b.currentHeights c r := rfl

theorem unMovePlace_lastMove (b : Board) (col row : Int) :
    (b.unMovePlace col row).lastMove = b.lastMove := rfl

theorem unMovePlace_score (b : Board) (col row : Int) :
    (b.unMovePlace col row).score
      = b.score - deltaEvalScore b.dims b.base b.grid
          (col, row, b.currentHeights col row - 1) := rfl

theorem unMovePlace_playerWin (b : Board) (col row : Int) :
    (b.unMovePlace col row).playerWin = '|' := rfl

theorem movePlace_dims (b : Board) (col row : Int) (p : Char) :
    (b.movePlace col row p).dims = b.dims := rfl

theorem unMovePlace_dims (b : Board) (col row : Int) :
    (b.unMovePlace col row).dims = b.dims := rfl

theorem movePlace_length (b : Board) (col row : Int) (p : Char) :
    (b.movePlace col row p).length = b.length := rfl

theorem movePlace_width (b : Board) (col row : Int) (p : Char) :
    (b.movePlace col row p).width = b.width := rfl

theorem movePlace_base (b : Board) (col row : Int) (p : Char) :
    (b.movePlace col row p).base = b.base := rfl

theorem unMovePlace_length (b : Board) (col row : Int) :
    (b.unMovePlace col row).length = b.length := rfl

theorem unMovePlace_width (b : Board) (col row : Int) :
    (b.unMovePlace col row).width = b.width := rfl

theorem unMovePlace_base (b : Board) (col row : Int) :
    (b.unMovePlace col row).base = b.base := rfl

theorem move_eq_reject₁ {b : Board} {s : MoveStr} {p : Char}
    (h : (parseMove s).1 < 0 ∨ b.length ≤ (parseMove s).1
        ∨ (parseMove s).2 < 0 ∨ b.width ≤ (parseMove s).2) :
    b.move s p = (b, (-1, -1, -1)) := by
  unfold Board.move
  rw [if_pos h]

theorem move_eq_reject₂ {b : Board} {s : MoveStr} {p : Char}
    (hn : ¬((parseMove s).1 < 0 ∨ b.length ≤ (parseMove s).1
        ∨ (parseMove s).2 < 0 ∨ b.width ≤ (parseMove s).2))
    (h2 : b.height ≤ b.currentHeights (parseMove s).1 (parseMove s).2) :
    b.move s p = (b, (-1, -1, -1)) := by
  unfold Board.move
  rw [if_neg hn, if_pos h2]

theorem move_eq_accept {b : Board} {s : MoveStr} {p : Char}
    (hn : ¬((parseMove s).1 < 0 ∨ b.length ≤ (parseMove s).1
        ∨ (parseMove s).2 < 0 ∨ b.width ≤ (parseMove s).2))
    (h2 : ¬(b.height ≤ b.currentHeights (parseMove s).1 (parseMove s).2)) :
    b.move s p = (b.movePlace (parseMove s).1 (parseMove s).2 p,
      ((parseMove s).1, (parseMove s).2,
        b.currentHeights (parseMove s).1 (parseMove s).2)) := by
  unfold Board.move
  rw [if_neg hn, if_neg h2]

theorem unMove_eq_reject₁ {b : Board} {s : MoveStr}
    (h : (parseMove s).1 < 0 ∨ b.length ≤ (parseMove s).1
        ∨ (parseMove s).2 < 0 ∨ b.width ≤ (parseMove s).2) :
    b.unMove s = (b, (-1, -1, -1)) := by
  unfold Board.unMove
  rw [if_pos h]

theorem unMove_eq_reject₂ {b : Board} {s : MoveStr}
    (hn : ¬((parseMove s).1 < 0 ∨ b.length ≤ (parseMove s).1
        ∨ (parseMove s).2 < 0 ∨ b.width ≤ (parseMove s).2))
    (h2 : b.currentHeights (parseMove s).1 (parseMove s).2 ≤ 0) :
    b.unMove s = (b, (-1, -1, -1)) := by
  unfold Board.unMove
  rw [if_neg hn, if_pos h2]

theorem unMove_eq_accept {b : Board} {s : MoveStr}
    (hn : ¬((parseMove s).1 < 0 ∨ b.length ≤ (parseMove s).1
        ∨ (parseMove s).2 < 0 ∨ b.width ≤ (parseMove s).2))
    (h2 : ¬(b.currentHeights (parseMove s).1 (parseMove s).2 ≤ 0)) :
    b.unMove s = (b.unMovePlace (parseMove s).1 (parseMove s).2,
      ((parseMove s).1, (parseMove s).2,
        b.currentHeights (parseMove s).1 (parseMove s).2 - 1)) := by
  unfold Board.unMove
  rw [if_neg hn, if_neg h2]

theorem wf_mkEmptyBoard (L W H wl : Int) : WF (mkEmptyBoard L W H wl) := by
  refine ⟨(evalGrid_blank _ _).symm, ?_⟩
  intro c r _ _ _ _
  have h0 : (mkEmptyBoard L W H wl).currentHeights c r = 0 := rfl
  refine ⟨by rw [h0], ?_, fun z _ => rfl⟩
  intro z hz0 hzlt
  rw [h0] at hzlt
  exact absurd hzlt (by omega)

theorem wf_movePlace {b : Board} (hb : WF b) {col row : Int} {p : Char}
    (hp : p = 'x' ∨ p = 'o')
    (hc0 : 0 ≤ col) (hcL : col < b.length) (hr0 : 0 ≤ row) (hrW : row < b.width) :
    WF (b.movePlace col row p) := by
  obtain ⟨hscore, hgrav⟩ := hb
  obtain ⟨hh0, hbelow, habove⟩ := hgrav col row hc0 hcL hr0 hrW
  have hcell : b.grid (col, row, b.currentHeights col row) = '|' := habove _ (le_refl _)
  have hsym : (fun q => if q = ((col, row, b.currentHeights col row) : Pos) then p else b.grid q)
        ((col, row, b.currentHeights col row) : Pos) = 'x'
      ∨ (fun q => if q = ((col, row, b.currentHeights col row) : Pos) then p else b.grid q)
        ((col, row, b.currentHeights col row) : Pos) = 'o' := by
    simpa using hp
  have hclear : clearAt
      (fun q => if q = ((col, row, b.currentHeights col row) : Pos) then p else b.grid q)
      ((col, row, b.currentHeights col row) : Pos) = b.grid := by
    funext q
    by_cases hq : q = ((col, row, b.currentHeights col row) : Pos)
    · rw [hq, clearAt_apply_self]
      exact hcell.symm
    · rw [clearAt_apply_ne _ hq]
      simp [hq]
  constructor
  · show (b.movePlace col row p).score
      = evalGrid b.dims b.base (b.movePlace col row p).grid
    rw [movePlace_score, movePlace_grid, deltaEvalScore_eq _ _ _ _ hsym, hclear, hscore]
    ring
  · intro c r hc0' hcL' hr0' hrW'
    rw [movePlace_length] at hcL'
    rw [movePlace_width] at hrW'
    obtain ⟨hh0c, hbelowc, habovec⟩ := hgrav c r hc0' hcL' hr0' hrW'
    rw [movePlace_heights, movePlace_grid]
    simp only []
    by_cases hcr : c = col ∧ r = row
    · obtain ⟨rfl, rfl⟩ := hcr
      rw [if_pos ⟨rfl, rfl⟩]
      refine ⟨by omega, ?_, ?_⟩
      · intro z hz0 hzlt
        by_cases hz : z = b.currentHeights c r
        · rw [if_pos (by rw [hz])]
          exact hp
        · rw [if_neg (by simp [hz])]
          exact hbelowc z hz0 (by omega)
      · intro z hz
        rw [if_neg (by simp; omega)]
        exact habovec z (by omega)
    · rw [if_neg hcr]
      refine ⟨hh0c, ?_, ?_⟩
      · intro z hz0 hzlt
        rw [if_neg (by
          intro heq
          rw [Prod.mk.injEq, Prod.mk.injEq] at heq
          exact hcr ⟨heq.1, heq.2.1⟩)]
        exact hbelowc z hz0 hzlt
      · intro z hz
        rw [if_neg (by
          intro heq
          rw [Prod.mk.injEq, Prod.mk.injEq] at heq
          exact hcr ⟨heq.1, heq.2.1⟩)]
        exact habovec z hz

theorem wf_unMovePlace {b : Board} (hb : WF b) {col row : Int}
    (hc0 : 0 ≤ col) (hcL : col < b.length) (hr0 : 0 ≤ row) (hrW : row < b.width)
    (hpos : 0 < b.currentHeights col row) :
    WF (b.unMovePlace col row) := by
  obtain ⟨hscore, hgrav⟩ := hb
  obtain ⟨hh0, hbelow, habove⟩ := hgrav col row hc0 hcL hr0 hrW
  have hsym : b.grid (col, row, b.currentHeights col row - 1) = 'x'
      ∨ b.grid (col, row, b.currentHeights col row - 1) = 'o' :=
    hbelow _ (by omega) (by omega)
  constructor
  · show (b.unMovePlace col row).score
      = evalGrid b.dims b.base (b.unMovePlace col row).grid
    rw [unMovePlace_score, unMovePlace_grid, deltaEvalScore_eq _ _ _ _ hsym, hscore]
    ring
  · intro c r hc0' hcL' hr0' hrW'
    rw [unMovePlace_length] at hcL'
    rw [unMovePlace_width] at hrW'
    obtain ⟨hh0c, hbelowc, habovec⟩ := hgrav c r hc0' hcL' hr0' hrW'
    rw [unMovePlace_heights, unMovePlace_grid]
    simp only []
    by_cases hcr : c = col ∧ r = row
    · obtain ⟨rfl, rfl⟩ := hcr
      rw [if_pos ⟨rfl, rfl⟩]
      refine ⟨by omega, ?_, ?_⟩
      · intro z hz0 hzlt
        rw [clearAt_apply_ne _ (by simp; omega)]
        exact hbelowc z hz0 (by omega)
      · intro z hz
        by_cases hz' : z = b.currentHeights c r - 1
        · rw [hz', clearAt_apply_self]
        · rw [clearAt_apply_ne _ (by simp [hz'])]
          exact habovec z (by omega)
    · rw [if_neg hcr]
      refine ⟨hh0c, ?_, ?_⟩
      · intro z hz0 hzlt
        rw [clearAt_apply_ne _ (by
          intro heq
          rw [Prod.mk.injEq, Prod.mk.injEq] at heq
          exact hcr ⟨heq.1, heq.2.1⟩)]
        exact hbelowc z hz0 hzlt
      · intro z hz
        rw [clearAt_apply_ne _ (by
          intro heq
          rw [Prod.mk.injEq, Prod.mk.injEq] at heq
          exact hcr ⟨heq.1, heq.2.1⟩)]
        exact habovec z hz

theorem wf_move_result {b : Board} (hb : WF b) (s : MoveStr) {p : Char}
    (hp : p = 'x' ∨ p = 'o') : WF (b.move s p).1 := by
  by_cases h1 : (parseMove s).1 < 0 ∨ b.length ≤ (parseMove s).1
      ∨ (parseMove s).2 < 0 ∨ b.width ≤ (parseMove s).2
  · rw [move_eq_reject₁ h1]
    exact hb
  · by_cases h2 : b.height ≤ b.currentHeights (parseMove s).1 (parseMove s).2
    · rw [move_eq_reject₂ h1 h2]
      exact hb
    · rw [move_eq_accept h1 h2]
      push_neg at h1
      exact wf_movePlace hb hp h1.1 h1.2.1 h1.2.2.1 h1.2.2.2

theorem wf_unMove_result {b : Board} (hb : WF b) (s : MoveStr) : WF (b.unMove s).1 := by
  by_cases h1 : (parseMove s).1 < 0 ∨ b.length ≤ (parseMove s).1
      ∨ (parseMove s).2 < 0 ∨ b.width ≤ (parseMove s).2
  · rw [unMove_eq_reject₁ h1]
    exact hb
  · by_cases h2 : b.currentHeights (parseMove s).1 (parseMove s).2 ≤ 0
    · rw [unMove_eq_reject₂ h1 h2]
      exact hb
    · rw [unMove_eq_accept h1 h2]
      push_neg at h1
      exact wf_unMovePlace hb h1.1 h1.2.1 h1.2.2.1 h1.2.2.2 (by omega)

theorem reachable_wf {b : Board} (hb : Reachable b) : WF b := by
  induction hb with
  | empty L W H wl => exact wf_mkEmptyBoard L W H wl
  | move s hp _ ih => exact wf_move_result ih s hp
  | unmove s _ ih => exact wf_unMove_result ih s

/-- C1: for every board reachable from a fresh empty board by any sequence of
`Move` and `UnMove` calls with players in {'x','o'}, the cached `Score` field
equals what a full recomputation of the evaluator over the whole grid
(`Evaluate`) returns: the per-segment delta that `Move` adds and `UnMove`
subtracts keeps the cache exact at all times. -/
theorem c1_score_cache_exact {b : Board} (hb : Reachable b) :
    b.score = evalGrid b.dims b.base b.grid :=
  (reachable_wf hb).1

theorem c1_score_cache_exact_witness :
    Reachable ((exCubeBoard.move mvA1 'x').1)
      ∧ ((exCubeBoard.move mvA1 'x').1).score
          = evalGrid ((exCubeBoard.move mvA1 'x').1).dims
              ((exCubeBoard.move mvA1 'x').1).base ((exCubeBoard.move mvA1 'x').1).grid :=
  ⟨Reachable.move mvA1 (Or.inl rfl) (Reachable.empty 2 2 2 2),
   c1_score_cache_exact (Reachable.move mvA1 (Or.inl rfl) (Reachable.empty 2 2 2 2))⟩

/-- C4 counterexample: on the fresh 2×2×2 board, `Move("A1", 'x')` followed by
`UnMove("A1")` leaves `LastMove` at the cell of the pair, (0,0,0), instead of
restoring the sentinel (-1,-1,-1): the pair is not the identity on the board. -/
theorem c4_counterexample :
    (((exCubeBoard.move mvA1 'x').1.unMove mvA1).1).lastMove ≠ exCubeBoard.lastMove := by
  decide

/-- C4 (amended): for every reachable board `b`, in-range non-full move string
`m` and ANY player byte `p`, `Move(m, p)` followed by `UnMove(m)` restores
`Grid`, `CurrentHeights` and `Score` exactly; `PlayerWin` is reset to '|' (so
it is restored exactly when `b` had no recorded winner) and `LastMove` is left
pointing at the cell the pair touched. -/
theorem c4_roundtrip {b : Board} (hb : Reachable b) (s : MoveStr) (p : Char)
    (hc0 : 0 ≤ (parseMove s).1) (hcL : (parseMove s).1 < b.length)
    (hr0 : 0 ≤ (parseMove s).2) (hrW : (parseMove s).2 < b.width)
    (hfull : b.currentHeights (parseMove s).1 (parseMove s).2 < b.height) :
    ((b.move s p).1.unMove s).1.grid = b.grid
      ∧ ((b.move s p).1.unMove s).1.currentHeights = b.currentHeights
      ∧ ((b.move s p).1.unMove s).1.score = b.score
      ∧ ((b.move s p).1.unMove s).1.playerWin = '|'
      ∧ ((b.move s p).1.unMove s).1.lastMove
          = ((parseMove s).1, (parseMove s).2,
              b.currentHeights (parseMove s).1 (parseMove s).2) := by
  obtain ⟨hscore, hgrav⟩ := reachable_wf hb
  obtain ⟨hh0, hbelow, habove⟩ := hgrav _ _ hc0 hcL hr0 hrW
  have hcell : b.grid ((parseMove s).1, (parseMove s).2,
      b.currentHeights (parseMove s).1 (parseMove s).2) = '|' := habove _ (le_refl _)
  have hn : ¬((parseMove s).1 < 0 ∨ b.length ≤ (parseMove s).1
      ∨ (parseMove s).2 < 0 ∨ b.width ≤ (parseMove s).2) := by
    rintro (h | h | h | h) <;> omega
  have h2 : ¬(b.height ≤ b.currentHeights (parseMove s).1 (parseMove s).2) := by omega
  have hb1 : (b.move s p).1 = b.movePlace (parseMove s).1 (parseMove s).2 p := by
    rw [move_eq_accept hn h2]
  rw [hb1]
  have hHeights : (b.movePlace (parseMove s).1 (parseMove s).2 p).currentHeights
      (parseMove s).1 (parseMove s).2
      = b.currentHeights (parseMove s).1 (parseMove s).2 + 1 := by
    rw [movePlace_heights]
    simp
  have hn' : ¬((parseMove s).1 < 0
      ∨ (b.movePlace (parseMove s).1 (parseMove s).2 p).length ≤ (parseMove s).1
      ∨ (parseMove s).2 < 0
      ∨ (b.movePlace (parseMove s).1 (parseMove s).2 p).width ≤ (parseMove s).2) := by
    rw [movePlace_length, movePlace_width]
    exact hn
  have h2' : ¬((b.movePlace (parseMove s).1 (parseMove s).2 p).currentHeights
      (parseMove s).1 (parseMove s).2 ≤ 0) := by
    rw [hHeights]
    omega
  have hb2 : ((b.movePlace (parseMove s).1 (parseMove s).2 p).unMove s).1
      = (b.movePlace (parseMove s).1 (parseMove s).2 p).unMovePlace
          (parseMove s).1 (parseMove s).2 := by
    rw [unMove_eq_accept hn' h2']
  rw [hb2]
  have htop : (b.movePlace (parseMove s).1 (parseMove s).2 p).currentHeights
      (parseMove s).1 (parseMove s).2 - 1
      = b.currentHeights (parseMove s).1 (parseMove s).2 := by
    rw [hHeights]
    ring
  refine ⟨?_, ?_, ?_, ?_, ?_⟩
  · rw [unMovePlace_grid, htop, movePlace_grid]
    funext q
    by_cases hq : q = (((parseMove s).1, (parseMove s).2,
        b.currentHeights (parseMove s).1 (parseMove s).2) : Pos)
    · rw [hq, clearAt_apply_self]
      exact hcell.symm
    · rw [clearAt_apply_ne _ hq]
      simp [hq]
  · rw [unMovePlace_heights]
    funext c r
    rw [movePlace_heights]
    simp only []
    by_cases hcr : c = (parseMove s).1 ∧ r = (parseMove s).2
    · rw [if_pos hcr, if_pos hcr]
      ring
    · rw [if_neg hcr, if_neg hcr]
  · rw [unMovePlace_score, htop, movePlace_score, movePlace_dims, movePlace_base,
      movePlace_grid]
    ring
  · rw [unMovePlace_playerWin]
  · rw [unMovePlace_lastMove, movePlace_lastMove]

theorem c4_roundtrip_witness :
    (0 ≤ (parseMove mvA1).1 ∧ (parseMove mvA1).1 < exCubeBoard.length
      ∧ 0 ≤ (parseMove mvA1).2 ∧ (parseMove mvA1).2 < exCubeBoard.width
      ∧ exCubeBoard.currentHeights (parseMove mvA1).1 (parseMove mvA1).2 < exCubeBoard.height)
    ∧ (((exCubeBoard.move mvA1 'x').1.unMove mvA1).1.grid = exCubeBoard.grid
      ∧ ((exCubeBoard.move mvA1 'x').1.unMove mvA1).1.currentHeights
          = exCubeBoard.currentHeights
      ∧ ((exCubeBoard.move mvA1 'x').1.unMove mvA1).1.score = exCubeBoard.score
      ∧ ((exCubeBoard.move mvA1 'x').1.unMove mvA1).1.playerWin = '|'
      ∧ ((exCubeBoard.move mvA1 'x').1.unMove mvA1).1.lastMove
          = ((parseMove mvA1).1, (parseMove mvA1).2,
              exCubeBoard.currentHeights (parseMove mvA1).1 (parseMove mvA1).2)) :=
  ⟨⟨by decide, by decide, by decide, by decide, by decide⟩,
   c4_roundtrip (Reachable.empty 2 2 2 2) mvA1 'x'
     (by decide) (by decide) (by decide) (by decide) (by decide)⟩

theorem deltaEvalScore_junk (d : Dims) (base : Int) (g : Grid) (p0 : Pos)
    (hx : g p0 ≠ 'x') (ho : g p0 ≠ 'o') :
    deltaEvalScore d base g p0 = 0 := by
  unfold deltaEvalScore
  apply List.sum_eq_zero
  intro v hv
  rw [List.mem_map] at hv
  obtain ⟨dir, _, rfl⟩ := hv
  apply List.sum_eq_zero
  intro t ht
  rw [List.mem_map] at ht
  obtain ⟨off, _, rfl⟩ := ht
  unfold deltaTerm
  simp only [if_neg hx, if_neg ho, ite_self]

/-- C9: `Move` performs no validation of the player byte.  For a well-formed
in-range move onto a non-full column and any byte `p` outside {'x','o'}, `Move`
still writes `p` into the grid cell, increments the column height and sets
`LastMove`, while `DeltaEvaluate`'s symbol branch skips every segment, so the
returned delta is 0 and `Score` is unchanged. -/
theorem c9_junk_player_accepted {b : Board} (s : MoveStr) (p : Char)
    (hpx : p ≠ 'x') (hpo : p ≠ 'o')
    (hc0 : 0 ≤ (parseMove s).1) (hcL : (parseMove s).1 < b.length)
    (hr0 : 0 ≤ (parseMove s).2) (hrW : (parseMove s).2 < b.width)
    (hfull : b.currentHeights (parseMove s).1 (parseMove s).2 < b.height) :
    (b.move s p).1.grid
        = (fun q => if q = ((parseMove s).1, (parseMove s).2,
              b.currentHeights (parseMove s).1 (parseMove s).2) then p else b.grid q)
      ∧ (b.move s p).1.currentHeights (parseMove s).1 (parseMove s).2
          = b.currentHeights (parseMove s).1 (parseMove s).2 + 1
      ∧ (b.move s p).1.lastMove
          = ((parseMove s).1, (parseMove s).2,
              b.currentHeights (parseMove s).1 (parseMove s).2)
      ∧ (b.move s p).1.score = b.score := by
  have hn : ¬((parseMove s).1 < 0 ∨ b.length ≤ (parseMove s).1
      ∨ (parseMove s).2 < 0 ∨ b.width ≤ (parseMove s).2) := by
    rintro (h | h | h | h) <;> omega
  have h2 : ¬(b.height ≤ b.currentHeights (parseMove s).1 (parseMove s).2) := by omega
  have hb1 : (b.move s p).1 = b.movePlace (parseMove s).1 (parseMove s).2 p := by
    rw [move_eq_accept hn h2]
  rw [hb1]
  refine ⟨movePlace_grid b _ _ p, ?_, movePlace_lastMove b _ _ p, ?_⟩
  · rw [movePlace_heights]
    simp
  · rw [movePlace_score, deltaEvalScore_junk]
    · ring
    · simpa using hpx
    · simpa using hpo

theorem c9_junk_player_accepted_witness :
    ('#' ≠ 'x' ∧ '#' ≠ 'o' ∧ 0 ≤ (parseMove mvA1).1
      ∧ (parseMove mvA1).1 < exCubeBoard.length ∧ 0 ≤ (parseMove mvA1).2
      ∧ (parseMove mvA1).2 < exCubeBoard.width
      ∧ exCubeBoard.currentHeights (parseMove mvA1).1 (parseMove mvA1).2
          < exCubeBoard.height)
    ∧ ((exCubeBoard.move mvA1 '#').1.grid
          = (fun q => if q = ((parseMove mvA1).1, (parseMove mvA1).2,
                exCubeBoard.currentHeights (parseMove mvA1).1 (parseMove mvA1).2) then '#'
              else exCubeBoard.grid q)
        ∧ (exCubeBoard.move mvA1 '#').1.currentHeights (parseMove mvA1).1 (parseMove mvA1).2
            = exCubeBoard.currentHeights (parseMove mvA1).1 (parseMove mvA1).2 + 1
        ∧ (exCubeBoard.move mvA1 '#').1.lastMove
            = ((parseMove mvA1).1, (parseMove mvA1).2,
                exCubeBoard.currentHeights (parseMove mvA1).1 (parseMove mvA1).2)
        ∧ (exCubeBoard.move mvA1 '#').1.score = exCubeBoard.score) :=
  ⟨⟨by decide, by decide, by decide, by decide, by decide, by decide, by decide⟩,
   c9_junk_player_accepted mvA1 '#' (by decide) (by decide) (by decide) (by decide)
     (by decide) (by decide) (by decide)⟩

/-- C10: `Evaluate` is not read-only — besides returning the recomputed
heuristic value it overwrites the board's `Score` field with that value, while
leaving `Grid`, `CurrentHeights`, `LastMove`, `PlayerWin` and the configuration
fields unchanged. -/
theorem c10_evaluate_writes_score (b : Board) :
    (b.evaluate).1 = evalGrid b.dims b.base b.grid
      ∧ (b.evaluate).2.score = (b.evaluate).1
      ∧ (b.evaluate).2.grid = b.grid
      ∧ (b.evaluate).2.currentHeights = b.currentHeights
      ∧ (b.evaluate).2.lastMove = b.lastMove
      ∧ (b.evaluate).2.playerWin = b.playerWin
      ∧ (b.evaluate).2.length = b.length
      ∧ (b.evaluate).2.width = b.width
      ∧ (b.evaluate).2.height = b.height
      ∧ (b.evaluate).2.winLength = b.winLength
      ∧ (b.evaluate).2.base = b.base :=
  ⟨rfl, rfl, rfl, rfl, rfl, rfl, rfl, rfl, rfl, rfl, rfl⟩

/-! ### Move-string parsing -/

theorem parseRowDigits_some_of_digits :
    ∀ (l : List Char) (a : Int), (∀ c ∈ l, '0' ≤ c ∧ c ≤ '9') →
      parseRowDigits a l
        = some (l.foldl (fun acc c => wrap64 (acc * 10 + ((c.toNat : Int) - 48))) a) := by
  intro l
  induction l with
  | nil => intro a _; rfl
  | cons c t ih =>
    intro a h
    unfold parseRowDigits
    rw [if_pos (h c (List.mem_cons_self c t))]
    exact ih _ fun d hd => h d (List.mem_cons_of_mem c hd)

theorem parseRowDigits_none_of_not_all :
    ∀ (l : List Char) (a : Int), ¬(∀ c ∈ l, '0' ≤ c ∧ c ≤ '9') →
      parseRowDigits a l = none := by
  intro l
  induction l with
  | nil => intro a h; exact absurd (fun c hc => absurd hc (List.not_mem_nil c)) h
  | cons c t ih =>
    intro a h
    unfold parseRowDigits
    by_cases hc : '0' ≤ c ∧ c ≤ '9'
    · rw [if_pos hc]
      apply ih
      intro hall
      exact h fun d hd => by
        rcases List.mem_cons.mp hd with rfl | hdt
        · exact hc
        · exact hall d hdt
    · rw [if_neg hc]

set_option maxRecDepth 4000 in
/-- C5 counterexample: the string "A01" does not match the spec grammar
`^[A-Z][1-9][0-9]*$` (its second character is '0'), yet on the default 4×4×4
board `Move("A01", 'x')` parses it like "A1", places a piece at (0,0,0) and
returns those coordinates rather than the invalid sentinel.  Likewise
"A18446744073709551617" violates the spec's `[1, width]` value bound (its
decimal value is `2^64 + 1`), yet the wrapping accumulator turns it into row
value 1 and a piece is placed at (0,0,0). -/
theorem c5_counterexample :
    ¬matchesSpecGrammar exDefaultBoard mvA01
      ∧ (exDefaultBoard.move mvA01 'x').2 = ((0, 0, 0) : Pos)
      ∧ (exDefaultBoard.move mvA01 'x').1.grid (0, 0, 0) = 'x'
      ∧ ¬matchesSpecGrammar exDefaultBoard mvWrap
      ∧ (exDefaultBoard.move mvWrap 'x').2 = ((0, 0, 0) : Pos)
      ∧ (exDefaultBoard.move mvWrap 'x').1.grid (0, 0, 0) = 'x' := by
  refine ⟨by decide, by decide, by decide, by decide, by decide, by decide⟩

/-- C5 (amended): the strings `Move`/`UnMove` accept are those of
`matchesLooseGrammar`: at least two characters, every character after the
first an ASCII digit (leading zeros allowed, so the digit part need not match
`[1-9][0-9]*`), the first character's offset from 'A' within `[0, length)`
(the first character itself need not be an upper-case letter when the board is
longer than 26 columns) and the wrapping 64-bit accumulation of the digits,
decremented with wrap, within `[0, width)` — i.e. the decimal value within
`[1, width]` modulo the 64-bit wrap-around of Go's `int`.  Every other string
makes both `Move` and `UnMove` return the invalid sentinel (-1,-1,-1) and
leave the board unchanged. -/
theorem c5_rejection (b : Board) (s : MoveStr) (p : Char)
    (h : ¬matchesLooseGrammar b s) :
    b.move s p = (b, (-1, -1, -1)) ∧ b.unMove s = (b, (-1, -1, -1)) := by
  match s with
  | [] =>
    exact ⟨move_eq_reject₁ (Or.inl (show ((-1 : Int) < 0) by norm_num)),
      unMove_eq_reject₁ (Or.inl (show ((-1 : Int) < 0) by norm_num))⟩
  | [c0] =>
    exact ⟨move_eq_reject₁ (Or.inl (show ((-1 : Int) < 0) by norm_num)),
      unMove_eq_reject₁ (Or.inl (show ((-1 : Int) < 0) by norm_num))⟩
  | c0 :: c1 :: rest =>
    by_cases hdig : ∀ c ∈ c1 :: rest, '0' ≤ c ∧ c ≤ '9'
    · have hv := parseRowDigits_some_of_digits (c1 :: rest) 0 hdig
      have hparse : parseMove (c0 :: c1 :: rest)
          = ((c0.toNat : Int) - 65, wrap64 (digitsValWrap (c1 :: rest) - 1)) := by
        simp only [parseMove, hv, digitsValWrap]
      have hfail : (c0.toNat : Int) - 65 < 0 ∨ b.length ≤ (c0.toNat : Int) - 65
          ∨ wrap64 (digitsValWrap (c1 :: rest) - 1) < 0
          ∨ b.width ≤ wrap64 (digitsValWrap (c1 :: rest) - 1) := by
        by_contra hcon
        push_neg at hcon
        obtain ⟨h1, h2, h3, h4⟩ := hcon
        exact h ⟨hdig, by omega, by omega, by omega, by omega⟩
      have hguard : (parseMove (c0 :: c1 :: rest)).1 < 0
          ∨ b.length ≤ (parseMove (c0 :: c1 :: rest)).1
          ∨ (parseMove (c0 :: c1 :: rest)).2 < 0
          ∨ b.width ≤ (parseMove (c0 :: c1 :: rest)).2 := by
        rw [hparse]
        simpa using hfail
      exact ⟨move_eq_reject₁ hguard, unMove_eq_reject₁ hguard⟩
    · have hnone := parseRowDigits_none_of_not_all (c1 :: rest) 0 hdig
      have hparse : parseMove (c0 :: c1 :: rest) = (-1, -1) := by
        simp only [parseMove, hnone]
      have hguard : (parseMove (c0 :: c1 :: rest)).1 < 0
          ∨ b.length ≤ (parseMove (c0 :: c1 :: rest)).1
          ∨ (parseMove (c0 :: c1 :: rest)).2 < 0
          ∨ b.width ≤ (parseMove (c0 :: c1 :: rest)).2 := by
        rw [hparse]
        exact Or.inl (by norm_num)
      exact ⟨move_eq_reject₁ hguard, unMove_eq_reject₁ hguard⟩

theorem c5_rejection_witness :
    ¬matchesLooseGrammar exDefaultBoard ['A', '0']
      ∧ (exDefaultBoard.move ['A', '0'] 'x' = (exDefaultBoard, (-1, -1, -1))
        ∧ exDefaultBoard.unMove ['A', '0'] = (exDefaultBoard, (-1, -1, -1))) :=
  ⟨by decide, c5_rejection exDefaultBoard ['A', '0'] 'x' (by decide)⟩

/-! ### The piggy-backed win detection -/

theorem foldl_setIf {β : Type} (P : β → Prop) [DecidablePred P] (v : Char)
    (f : Char → β → Char) :
    ∀ (l : List β), (∀ a ∈ l, ∀ pw, f pw a = if P a then v else pw) →
    ∀ pw : Char, l.foldl f pw = if ∃ a ∈ l, P a then v else pw := by
  intro l
  induction l with
  | nil =>
    intro _ pw
    simp
  | cons a t ih =>
    intro hf pw
    rw [List.foldl_cons, hf a (List.mem_cons_self a t),
      ih (fun b hb pw' => hf b (List.mem_cons_of_mem a hb) pw')]
    have hiff : (∃ c ∈ a :: t, P c) ↔ (P a ∨ ∃ b ∈ t, P b) := by
      constructor
      · rintro ⟨c, hcmem, hPc⟩
        rcases List.mem_cons.mp hcmem with rfl | hct
        · exact Or.inl hPc
        · exact Or.inr ⟨c, hct, hPc⟩
      · rintro (hPa | ⟨b, hb, hPb⟩)
        · exact ⟨a, List.mem_cons_self a t, hPa⟩
        · exact ⟨b, List.mem_cons_of_mem a hb, hPb⟩
    by_cases hPa : P a <;> by_cases hPt : ∃ b ∈ t, P b <;>
      simp [hPa, hPt, hiff]

theorem deltaWinStep_eq {d : Dims} {g : Grid} {p0 dir : Pos} {off : Int}
    (hoff : off ∈ offsetsList d.winLength) {c : Char} (hc : g p0 = c)
    (hxo : c = 'x' ∨ c = 'o') (pw : Char) :
    deltaWinStep d g (step p0 dir off) dir pw
      = if segWinAt d g (step p0 dir off) dir c then c else pw := by
  have hw1 : 0 < d.winLength := (mem_offsetsList.mp hoff).2.2
  have hmem : p0 ∈ lineCells (step p0 dir off) dir d.winLength :=
    start_mem_iff.mp ⟨off, hoff, rfl⟩
  unfold deltaWinStep
  by_cases hv : isValidCoordinate d (step p0 dir off)
      ∧ isValidCoordinate d (step (step p0 dir off) dir (d.winLength - 1))
  · rw [if_pos hv]
    by_cases hall : ∀ q ∈ lineCells (step p0 dir off) dir d.winLength, isValidCoordinate d q
    · have hline : getLine d g (step p0 dir off) dir
          = (lineCells (step p0 dir off) dir d.winLength).map g := by
        unfold getLine
        rw [if_pos hall]
      have hlen : ((lineCells (step p0 dir off) dir d.winLength).map g).length
          = d.winLength.toNat := by
        rw [List.length_map, lineCells_length]
      have hcmem : c ∈ (lineCells (step p0 dir off) dir d.winLength).map g :=
        List.mem_map.mpr ⟨p0, hmem, hc⟩
      have hcpos : 0 < ((lineCells (step p0 dir off) dir d.winLength).map g).count c :=
        List.count_pos_iff.mpr hcmem
      simp only [hline]
      rcases hxo with rfl | rfl
      · have hno : ¬((((lineCells (step p0 dir off) dir d.winLength).map g).count 'o' : Int)
            = d.winLength
            ∧ ((lineCells (step p0 dir off) dir d.winLength).map g).count 'x' = 0) := by
          rintro ⟨_, h0⟩
          omega
        by_cases hcond : (((lineCells (step p0 dir off) dir d.winLength).map g).count 'x' : Int)
            = d.winLength
            ∧ ((lineCells (step p0 dir off) dir d.winLength).map g).count 'o' = 0
        · rw [if_pos hcond, if_pos ?_]
          refine ⟨hv.1, hv.2, hall, ?_⟩
          intro q hq
          have hcnt : ((lineCells (step p0 dir off) dir d.winLength).map g).count 'x'
              = ((lineCells (step p0 dir off) dir d.winLength).map g).length := by
            rw [hlen]
            omega
          have := List.count_eq_length.mp hcnt (g q) (List.mem_map_of_mem g hq)
          exact this.symm
        · rw [if_neg hcond, if_neg hno, if_neg ?_]
          rintro ⟨_, _, _, hallx⟩
          apply hcond
          constructor
          · have hcnt : ((lineCells (step p0 dir off) dir d.winLength).map g).count 'x'
                = ((lineCells (step p0 dir off) dir d.winLength).map g).length := by
              apply List.count_eq_length.mpr
              intro bb hbb
              obtain ⟨q, hq, rfl⟩ := List.mem_map.mp hbb
              exact (hallx q hq).symm
            rw [hcnt, hlen]
            omega
          · apply List.count_eq_zero.mpr
            intro hmo
            obtain ⟨q, hq, heq⟩ := List.mem_map.mp hmo
            have := hallx q hq
            rw [this] at heq
            exact absurd heq (by decide)
      · have hnx : ¬((((lineCells (step p0 dir off) dir d.winLength).map g).count 'x' : Int)
            = d.winLength
            ∧ ((lineCells (step p0 dir off) dir d.winLength).map g).count 'o' = 0) := by
          rintro ⟨_, h0⟩
          omega
        rw [if_neg hnx]
        by_cases hcond : (((lineCells (step p0 dir off) dir d.winLength).map g).count 'o' : Int)
            = d.winLength
            ∧ ((lineCells (step p0 dir off) dir d.winLength).map g).count 'x' = 0
        · rw [if_pos hcond, if_pos ?_]
          refine ⟨hv.1, hv.2, hall, ?_⟩
          intro q hq
          have hcnt : ((lineCells (step p0 dir off) dir d.winLength).map g).count 'o'
              = ((lineCells (step p0 dir off) dir d.winLength).map g).length := by
            rw [hlen]
            omega
          have := List.count_eq_length.mp hcnt (g q) (List.mem_map_of_mem g hq)
          exact this.symm
        · rw [if_neg hcond, if_neg ?_]
          rintro ⟨_, _, _, hallo⟩
          apply hcond
          constructor
          · have hcnt : ((lineCells (step p0 dir off) dir d.winLength).map g).count 'o'
                = ((lineCells (step p0 dir off) dir d.winLength).map g).length := by
              apply List.count_eq_length.mpr
              intro bb hbb
              obtain ⟨q, hq, rfl⟩ := List.mem_map.mp hbb
              exact (hallo q hq).symm
            rw [hcnt, hlen]
            omega
          · apply List.count_eq_zero.mpr
            intro hmx
            obtain ⟨q, hq, heq⟩ := List.mem_map.mp hmx
            have := hallo q hq
            rw [this] at heq
            exact absurd heq (by decide)
    · have hline : getLine d g (step p0 dir off) dir
          = List.replicate d.winLength.toNat '|' := by
        unfold getLine
        rw [if_neg hall]
      have hcx : (List.replicate d.winLength.toNat '|').count 'x' = 0 := by
        apply List.count_eq_zero.mpr
        intro hmx
        exact absurd (List.eq_of_mem_replicate hmx) (by decide)
      have hco : (List.replicate d.winLength.toNat '|').count 'o' = 0 := by
        apply List.count_eq_zero.mpr
        intro hmo
        exact absurd (List.eq_of_mem_replicate hmo) (by decide)
      simp only [hline, hcx, hco]
      rw [if_neg (by omega), if_neg (by omega), if_neg (fun hseg => hall hseg.2.2.1)]
  · rw [if_neg hv, if_neg (fun hseg => hv ⟨hseg.1, hseg.2.1⟩)]

theorem deltaEvalWin_eq {d : Dims} {g : Grid} {p0 : Pos} {c : Char}
    (hc : g p0 = c) (hxo : c = 'x' ∨ c = 'o') (pw : Char) :
    deltaEvalWin d g p0 pw = if winThrough d g p0 c then c else pw := by
  unfold deltaEvalWin
  have hinner : ∀ dir ∈ directions, ∀ pw' : Char,
      (offsetsList d.winLength).foldl
        (fun pw offset => deltaWinStep d g (step p0 dir offset) dir pw) pw'
      = if ∃ off ∈ offsetsList d.winLength, segWinAt d g (step p0 dir off) dir c
          then c else pw' := by
    intro dir _ pw'
    exact foldl_setIf (fun off => segWinAt d g (step p0 dir off) dir c) c _
      (offsetsList d.winLength) (fun off hoff pw'' => deltaWinStep_eq hoff hc hxo pw'') pw'
  rw [foldl_setIf
    (fun dir => ∃ off ∈ offsetsList d.winLength, segWinAt d g (step p0 dir off) dir c) c _
    directions hinner pw]
  by_cases hw : winThrough d g p0 c
  · rw [if_pos hw]
    exact if_pos hw
  · rw [if_neg hw]
    exact if_neg hw

theorem segWinAt_congr {d : Dims} {g1 g2 : Grid} {p0 start dir : Pos} {c : Char}
    (hagree : ∀ q, q ≠ p0 → g1 q = g2 q)
    (hnot : p0 ∉ lineCells start dir d.winLength) :
    segWinAt d g1 start dir c ↔ segWinAt d g2 start dir c := by
  unfold segWinAt
  have hcells : ∀ q ∈ lineCells start dir d.winLength, g1 q = g2 q :=
    fun q hq => hagree q (fun he => hnot (he ▸ hq))
  constructor
  · rintro ⟨h1, h2, h3, h4⟩
    exact ⟨h1, h2, h3, fun q hq => (hcells q hq) ▸ h4 q hq⟩
  · rintro ⟨h1, h2, h3, h4⟩
    exact ⟨h1, h2, h3, fun q hq => (hcells q hq).symm ▸ h4 q hq⟩

theorem winThrough_hasWinSeg {d : Dims} {g : Grid} {p0 : Pos} {c : Char}
    (h : winThrough d g p0 c) : hasWinSeg d g c := by
  obtain ⟨dir, hdir, off, hoff, hseg⟩ := h
  exact ⟨dir, hdir, step p0 dir off, mem_cellsBox.mpr hseg.1, hseg⟩

/-- A winning segment in the updated grid either passes through the played
cell (and is then enumerated by the delta scan) or already existed. -/
theorem hasWinSeg_update {d : Dims} {g : Grid} {p0 : Pos} {p : Char} {c : Char}
    (h : hasWinSeg d (fun q => if q = p0 then p else g q) c) :
    winThrough d (fun q => if q = p0 then p else g q) p0 c ∨ hasWinSeg d g c := by
  obtain ⟨dir, hdir, start, hbox, hseg⟩ := h
  by_cases hmem : p0 ∈ lineCells start dir d.winLength
  · left
    obtain ⟨off, hoff, heq⟩ := start_mem_iff.mpr hmem
    exact ⟨dir, hdir, off, hoff, heq ▸ hseg⟩
  · right
    refine ⟨dir, hdir, start, hbox, ?_⟩
    exact (segWinAt_congr (fun q hq => by simp [hq]) hmem).mp hseg

/-- A winning segment never contains a blank cell, so segments of the original
grid survive the update (the played cell was blank) and segments of the updated
grid that avoid the played cell already existed. -/
theorem hasWinSeg_persist {d : Dims} {g : Grid} {p0 : Pos} {p c : Char}
    (hcell : g p0 = '|') (hc : c ≠ '|') (h : hasWinSeg d g c) :
    hasWinSeg d (fun q => if q = p0 then p else g q) c := by
  obtain ⟨dir, hdir, start, hbox, hseg⟩ := h
  have hmem : p0 ∉ lineCells start dir d.winLength := by
    intro hp0
    exact hc ((hseg.2.2.2 p0 hp0).symm.trans hcell)
  refine ⟨dir, hdir, start, hbox, ?_⟩
  exact (segWinAt_congr (fun q hq => by simp [hq]) hmem).mpr hseg

theorem hasWinSeg_blank {d : Dims} (hw : 0 < d.winLength) {c : Char} (hc : c ≠ '|') :
    ¬hasWinSeg d (fun _ => '|') c := by
  rintro ⟨dir, _, start, _, _, _, _, hall⟩
  have hmem : step start dir ((0 : Nat) : Int) ∈ lineCells start dir d.winLength :=
    mem_lineCells.mpr ⟨0, by omega, rfl⟩
  exact hc (hall _ hmem).symm

theorem winInv_movePlace {b : Board} (hwf : WF b) (hinv : WinInv b) {col row : Int} {p : Char}
    (hp : p = 'x' ∨ p = 'o')
    (hc0 : 0 ≤ col) (hcL : col < b.length) (hr0 : 0 ≤ row) (hrW : row < b.width) :
    WinInv (b.movePlace col row p) := by
  obtain ⟨hiff, hx, ho⟩ := hinv
  obtain ⟨_, hgrav⟩ := hwf
  obtain ⟨hh0, hbelow, habove⟩ := hgrav col row hc0 hcL hr0 hrW
  have hcell : b.grid (col, row, b.currentHeights col row) = '|' := habove _ (le_refl _)
  have hpne : p ≠ '|' := by rcases hp with rfl | rfl <;> decide
  have hgval : (fun q => if q = ((col, row, b.currentHeights col row) : Pos) then p
      else b.grid q) ((col, row, b.currentHeights col row) : Pos) = p := by simp
  have hpw : (b.movePlace col row p).playerWin
      = if winThrough b.dims
            (fun q => if q = ((col, row, b.currentHeights col row) : Pos) then p else b.grid q)
            ((col, row, b.currentHeights col row) : Pos) p
          then p else b.playerWin := by
    rw [movePlace_playerWin]
    exact deltaEvalWin_eq hgval hp b.playerWin
  unfold WinInv
  rw [movePlace_dims, movePlace_grid, hpw]
  refine ⟨⟨?_, ?_⟩, ?_, ?_⟩
  · intro hpw'
    have hnofire : ¬winThrough b.dims
        (fun q => if q = ((col, row, b.currentHeights col row) : Pos) then p else b.grid q)
        ((col, row, b.currentHeights col row) : Pos) p ∧ b.playerWin = '|' := by
      by_cases hP : winThrough b.dims
          (fun q => if q = ((col, row, b.currentHeights col row) : Pos) then p else b.grid q)
          ((col, row, b.currentHeights col row) : Pos) p
      · rw [if_pos hP] at hpw'
        exact absurd hpw' hpne
      · rw [if_neg hP] at hpw'
        exact ⟨hP, hpw'⟩
    obtain ⟨hnf, hpwb⟩ := hnofire
    obtain ⟨hnx, hno⟩ := hiff.mp hpwb
    constructor
    · intro hseg
      rcases hasWinSeg_update hseg with hth | hold
      · have hpx : p = 'x' := by
          obtain ⟨dir, hdir, off, hoff, hseg'⟩ := hth
          have hmem : ((col, row, b.currentHeights col row) : Pos)
              ∈ lineCells (step ((col, row, b.currentHeights col row) : Pos) dir off) dir
                b.dims.winLength :=
            start_mem_iff.mp ⟨off, hoff, rfl⟩
          exact hgval.symm.trans (hseg'.2.2.2 _ hmem)
        subst hpx
        exact hnf hth
      · exact hnx hold
    · intro hseg
      rcases hasWinSeg_update hseg with hth | hold
      · have hpo : p = 'o' := by
          obtain ⟨dir, hdir, off, hoff, hseg'⟩ := hth
          have hmem : ((col, row, b.currentHeights col row) : Pos)
              ∈ lineCells (step ((col, row, b.currentHeights col row) : Pos) dir off) dir
                b.dims.winLength :=
            start_mem_iff.mp ⟨off, hoff, rfl⟩
          exact hgval.symm.trans (hseg'.2.2.2 _ hmem)
        subst hpo
        exact hnf hth
      · exact hno hold
  · rintro ⟨hnx', hno'⟩
    have hnf : ¬winThrough b.dims
        (fun q => if q = ((col, row, b.currentHeights col row) : Pos) then p else b.grid q)
        ((col, row, b.currentHeights col row) : Pos) p := by
      intro hth
      rcases hp with rfl | rfl
      · exact hnx' (winThrough_hasWinSeg hth)
      · exact hno' (winThrough_hasWinSeg hth)
    rw [if_neg hnf]
    apply hiff.mpr
    constructor
    · intro hsegb
      exact hnx' (hasWinSeg_persist hcell (by decide) hsegb)
    · intro hsegb
      exact hno' (hasWinSeg_persist hcell (by decide) hsegb)
  · intro hpw'
    by_cases hP : winThrough b.dims
        (fun q => if q = ((col, row, b.currentHeights col row) : Pos) then p else b.grid q)
        ((col, row, b.currentHeights col row) : Pos) p
    · rw [if_pos hP] at hpw'
      subst hpw'
      exact winThrough_hasWinSeg hP
    · rw [if_neg hP] at hpw'
      exact hasWinSeg_persist hcell (by decide) (hx hpw')
  · intro hpw'
    by_cases hP : winThrough b.dims
        (fun q => if q = ((col, row, b.currentHeights col row) : Pos) then p else b.grid q)
        ((col, row, b.currentHeights col row) : Pos) p
    · rw [if_pos hP] at hpw'
      subst hpw'
      exact winThrough_hasWinSeg hP
    · rw [if_neg hP] at hpw'
      exact hasWinSeg_persist hcell (by decide) (ho hpw')

theorem winInv_move_result {b : Board} (hwf : WF b) (hinv : WinInv b) (s : MoveStr) {p : Char}
    (hp : p = 'x' ∨ p = 'o') : WinInv (b.move s p).1 := by
  by_cases h1 : (parseMove s).1 < 0 ∨ b.length ≤ (parseMove s).1
      ∨ (parseMove s).2 < 0 ∨ b.width ≤ (parseMove s).2
  · rw [move_eq_reject₁ h1]
    exact hinv
  · by_cases h2 : b.height ≤ b.currentHeights (parseMove s).1 (parseMove s).2
    · rw [move_eq_reject₂ h1 h2]
      exact hinv
    · rw [move_eq_accept h1 h2]
      push_neg at h1
      exact winInv_movePlace hwf hinv hp h1.1 h1.2.1 h1.2.2.1 h1.2.2.2

theorem moveReachable_reachable {b : Board} (h : MoveReachable b) : Reachable b := by
  induction h with
  | empty L W H wl hw => exact Reachable.empty L W H wl
  | move s hp hprev ih => exact Reachable.move s hp ih

theorem winInv_mkEmptyBoard (L W H wl : Int) (hw : 0 < wl) :
    WinInv (mkEmptyBoard L W H wl) := by
  refine ⟨⟨?_, ?_⟩, ?_, ?_⟩
  · intro _
    exact ⟨hasWinSeg_blank hw (by decide), hasWinSeg_blank hw (by decide)⟩
  · intro _
    rfl
  · intro hcon
    exact absurd (show ('|' : Char) = 'x' from hcon) (by decide)
  · intro hcon
    exact absurd (show ('|' : Char) = 'o' from hcon) (by decide)

theorem moveReachable_winInv {b : Board} (h : MoveReachable b) : WinInv b := by
  induction h with
  | empty L W H wl hw => exact winInv_mkEmptyBoard L W H wl hw
  | move s hp hprev ih =>
    exact winInv_move_result (reachable_wf (moveReachable_reachable hprev)) ih s hp

/-- C6 counterexample: the 2×2×2 board reached by the move-only history
A1:x, A1:x, B1:o, B1:o has a winning x-segment (the A1 column), yet `CheckWin`
returns 'o' (the more recently completed win) — so "CheckWin returns 'x' iff
some segment holds only 'x'" fails on a move-only history. -/
theorem c6_counterexample :
    MoveReachable exDoubleWinBoard
      ∧ exDoubleWinBoard.checkWin = 'o'
      ∧ hasWinSeg exDoubleWinBoard.dims exDoubleWinBoard.grid 'x' :=
  ⟨MoveReachable.move mvB1 (Or.inr rfl)
      (MoveReachable.move mvB1 (Or.inr rfl)
        (MoveReachable.move mvA1 (Or.inl rfl)
          (MoveReachable.move mvA1 (Or.inl rfl)
            (MoveReachable.empty 2 2 2 2 (by norm_num))))),
   by decide, by decide⟩

/-- C6 (amended): on every board reached from a fresh empty board (with a
positive win length) by `Move` calls only with players in {'x','o'}, `CheckWin`
returns '|' exactly when no winning segment of either player exists, and a
non-'|' answer always points at a real winning segment for that player.  The
original two-sided "returns 'x' iff an x-segment exists" holds only in that
weakened form: when both players own winning segments the flag keeps the most
recently completed one. -/
theorem c6_winner_flag {b : Board} (hb : MoveReachable b) :
    (b.checkWin = '|' ↔ ¬hasWinSeg b.dims b.grid 'x' ∧ ¬hasWinSeg b.dims b.grid 'o')
      ∧ (b.checkWin = 'x' → hasWinSeg b.dims b.grid 'x')
      ∧ (b.checkWin = 'o' → hasWinSeg b.dims b.grid 'o') :=
  moveReachable_winInv hb

theorem c6_winner_flag_witness :
    MoveReachable ((exCubeBoard.move mvA1 'x').1.move mvA1 'x').1
      ∧ ((((exCubeBoard.move mvA1 'x').1.move mvA1 'x').1.checkWin = '|'
            ↔ ¬hasWinSeg ((exCubeBoard.move mvA1 'x').1.move mvA1 'x').1.dims
                  ((exCubeBoard.move mvA1 'x').1.move mvA1 'x').1.grid 'x'
              ∧ ¬hasWinSeg ((exCubeBoard.move mvA1 'x').1.move mvA1 'x').1.dims
                  ((exCubeBoard.move mvA1 'x').1.move mvA1 'x').1.grid 'o')
          ∧ (((exCubeBoard.move mvA1 'x').1.move mvA1 'x').1.checkWin = 'x'
              → hasWinSeg ((exCubeBoard.move mvA1 'x').1.move mvA1 'x').1.dims
                  ((exCubeBoard.move mvA1 'x').1.move mvA1 'x').1.grid 'x')
          ∧ (((exCubeBoard.move mvA1 'x').1.move mvA1 'x').1.checkWin = 'o'
              → hasWinSeg ((exCubeBoard.move mvA1 'x').1.move mvA1 'x').1.dims
                  ((exCubeBoard.move mvA1 'x').1.move mvA1 'x').1.grid 'o')) :=
  ⟨MoveReachable.move mvA1 (Or.inl rfl)
      (MoveReachable.move mvA1 (Or.inl rfl) (MoveReachable.empty 2 2 2 2 (by norm_num))),
   c6_winner_flag
     (MoveReachable.move mvA1 (Or.inl rfl)
       (MoveReachable.move mvA1 (Or.inl rfl) (MoveReachable.empty 2 2 2 2 (by norm_num))))⟩

/-- C2: `MakeMove` does pass the extreme root threshold (`MIN_INT` when
maximising), but under it the cutoff FIRES: after the first move the loop's
`currentScore >= threshold` comparison is always true, so the root examines
only the first valid move.  On the 3×1×1 strip at depth 1 the root returns the
first move A1 with score 10 while the full search finds B1 with score 20. -/
theorem c2_root_cutoff_fires :
    rootThreshold true = minInt
      ∧ exRowBoard.getValidMoves = [mvA1, mvB1, mvC1]
      ∧ (alphaBetaMinimax 1 exRowBoard true (rootThreshold true)).1 = (10, [mvA1])
      ∧ naiveMinimax 1 exRowBoard true = (20, [mvB1])
      ∧ (10 : Int) ≠ 20 :=
  ⟨rfl, by decide, by decide, by decide, by decide⟩

/-- C3: the three sequential drivers do NOT return the same root score.  On the
1×1×1 board at depth 1 the naive driver (which short-circuits on a set winner)
returns `MAX_INT/2` while the delta driver `minimax` (which never checks the
winner) returns the heuristic 130; on the 3×1×1 strip at depth 1 the threshold
driver with the extreme root threshold returns 10 (first move only, see C2)
while the naive driver returns 20. -/
theorem c3_drivers_disagree :
    (naiveMinimax 1 exUnitBoard true).1 = maxIntHalf
      ∧ (minimax 1 exUnitBoard true).1 = 130
      ∧ maxIntHalf ≠ 130
      ∧ (naiveMinimax 1 exRowBoard true).1 = 20
      ∧ ((alphaBetaMinimax 1 exRowBoard true (rootThreshold true)).1).1 = 10
      ∧ (20 : Int) ≠ 10 :=
  ⟨by decide, by decide, by decide, by decide, by decide, by decide⟩

/-- The projection of the root-parallel result fold onto the best score is a
plain max/min fold. -/
theorem foldl_best_score (isMax : Bool) :
    ∀ (l : List MoveResult) (init : Int × MoveStr),
      (l.foldl (fun acc r =>
          if isMax = true ∧ acc.1 < r.score then (r.score, r.move)
          else if isMax = false ∧ r.score < acc.1 then (r.score, r.move)
          else acc) init).1
        = l.foldl (fun a r => if isMax then max a r.score else min a r.score) init.1 := by
  intro l
  induction l with
  | nil => intro _; rfl
  | cons r t ih =>
    intro init
    rw [List.foldl_cons, List.foldl_cons, ih]
    congr 1
    rcases isMax with _ | _
    · by_cases hlt : r.score < init.1 <;> simp [hlt] <;> omega
    · by_cases hlt : init.1 < r.score <;> simp [hlt] <;> omega

/-- Max/min folds over the worker results are invariant under the arrival
order. -/
theorem foldl_best_perm (isMax : Bool) {l1 l2 : List MoveResult} (hp : l1.Perm l2) :
    ∀ init : Int,
      l1.foldl (fun a r => if isMax then max a r.score else min a r.score) init
        = l2.foldl (fun a r => if isMax then max a r.score else min a r.score) init := by
  induction hp with
  | nil => intro _; rfl
  | cons x hp' ih =>
    intro init
    rw [List.foldl_cons, List.foldl_cons, ih]
  | swap x y l =>
    intro init
    rw [List.foldl_cons, List.foldl_cons, List.foldl_cons, List.foldl_cons]
    congr 1
    rcases isMax with _ | _
    · show min (min init y.score) x.score = min (min init x.score) y.score
      rw [min_assoc, min_assoc, min_comm y.score x.score]
    · show max (max init y.score) x.score = max (max init x.score) y.score
      rw [max_assoc, max_assoc, max_comm y.score x.score]
  | trans hp1 hp2 ih1 ih2 =>
    intro init
    rw [ih1, ih2]

/-- The best score of the root-parallel `concurrentMinimax` does not depend on
the order in which worker results arrive (only the chosen move among ties
does): its result-consumption loop has no cutoff, so the score is the max/min
over the fixed multiset of per-move scores. -/
theorem concurrentMinimaxRun_score_deterministic (b : Board) (depth : Nat) (isMax : Bool)
    (powers : List Int) {l1 l2 : List MoveStr} (hp : l1.Perm l2) :
    (concurrentMinimaxRun b depth isMax powers l1).1
      = (concurrentMinimaxRun b depth isMax powers l2).1 := by
  unfold concurrentMinimaxRun
  by_cases h0 : b.getValidMoves.length = 0
  · rw [if_pos h0, if_pos h0]
  · rw [if_neg h0, if_neg h0]
    by_cases h1 : b.getValidMoves.length = 1
    · rw [if_pos h1, if_pos h1]
    · rw [if_neg h1, if_neg h1]
      rw [foldl_best_score, foldl_best_score]
      exact foldl_best_perm isMax (hp.map _) _

/-- C8: the deep-parallel `concurrentAlphaBetaMinimax` root is NOT
score-deterministic across schedules.  Called with the extreme root threshold
from `MakeMove`, the consumption loop's `bestScore >= threshold` cutoff fires
on the very first improving result, so the returned score is the first
arriving worker's score.  On the 3×1×1 strip at depth 3, the arrival order
A1,B1,C1 yields score 0 while B1,A1,C1 yields `MAX_INT/2`. -/
theorem c8_deep_parallel_schedule_dependent :
    (mvB1 :: mvA1 :: [mvC1]).Perm exRowBoard.getValidMoves
      ∧ (concurrentABRootRun exRowBoard 3 true exRowBoard.getValidMoves).1 = 0
      ∧ (concurrentABRootRun exRowBoard 3 true (mvB1 :: mvA1 :: [mvC1])).1 = maxIntHalf
      ∧ (0 : Int) ≠ maxIntHalf :=
  ⟨by decide, by decide, by decide, by decide⟩

theorem perm_two {α : Type} {l : List α} {a b : α} (h : l.Perm [a, b]) :
    l = [a, b] ∨ l = [b, a] := by
  match l with
  | [] => exact absurd h.length_eq (by simp)
  | [x] => exact absurd h.length_eq (by simp)
  | x :: y :: z :: t => exact absurd h.length_eq (by simp)
  | [x, y] =>
    have hx : x ∈ [a, b] := h.mem_iff.mp (by simp)
    simp only [List.mem_cons, List.not_mem_nil, or_false] at hx
    rcases hx with rfl | rfl
    · have hy : [y] = [b] := List.perm_singleton.mp h.cons_inv
      exact Or.inl (by rw [hy])
    · have h2 : [x, y].Perm (x :: [a]) := h.trans (List.Perm.swap x a [])
      have hy : [y] = [a] := List.perm_singleton.mp h2.cons_inv
      exact Or.inr (by rw [hy])

theorem perm_three {α : Type} {l : List α} {a b c : α} (h : l.Perm [a, b, c]) :
    l = [a, b, c] ∨ l = [a, c, b] ∨ l = [b, a, c] ∨ l = [b, c, a]
      ∨ l = [c, a, b] ∨ l = [c, b, a] := by
  match l with
  | [] => exact absurd h.length_eq (by simp)
  | [x] => exact absurd h.length_eq (by simp)
  | [x, y] => exact absurd h.length_eq (by simp)
  | x :: y :: z :: w :: t => exact absurd h.length_eq (by simp)
  | [x, y, z] =>
    have hx : x ∈ [a, b, c] := h.mem_iff.mp (by simp)
    simp only [List.mem_cons, List.not_mem_nil, or_false] at hx
    rcases hx with rfl | rfl | rfl
    · rcases perm_two h.cons_inv with h2 | h2 <;> rw [h2]
      · exact Or.inl rfl
      · exact Or.inr (Or.inl rfl)
    · have h3 : [x, y, z].Perm (x :: [a, c]) := h.trans (List.Perm.swap x a [c])
      rcases perm_two h3.cons_inv with h2 | h2 <;> rw [h2]
      · exact Or.inr (Or.inr (Or.inl rfl))
      · exact Or.inr (Or.inr (Or.inr (Or.inl rfl)))
    · have h3 : [x, y, z].Perm (x :: [a, b]) :=
        h.trans ((List.Perm.cons a (List.Perm.swap x b [])).trans (List.Perm.swap x a [b]))
      rcases perm_two h3.cons_inv with h2 | h2 <;> rw [h2]
      · exact Or.inr (Or.inr (Or.inr (Or.inr (Or.inl rfl))))
      · exact Or.inr (Or.inr (Or.inr (Or.inr (Or.inr rfl))))

/-- C7: the final tuple of the streaming driver does NOT carry the score the
sequential threshold driver returns at the same depth.  On the 3×1×1 strip at
depth 3 the root takes the concurrent branch (3 valid moves, depth > 2) and
each depth-2 child falls into the sequential fallback, emitting one final
tuple, so every legal schedule is one arrival order — one permutation of the
valid moves — of the three tagged child results.  Under every such schedule
the emitted sequence ends in its unique final tuple and that tuple's score is
`MAX_INT/2` (the best child score, which also trips the `MAX_INT/3`
cancellation), while the sequential `alphaBetaMinimax` with the root
threshold from `MakeMove` returns 0, because its always-true root cutoff
keeps only the first valid move. -/
theorem c7_stream_final_vs_sequential :
    exRowBoard.getValidMoves = [mvA1, mvB1, mvC1]
      ∧ (∀ ord : List MoveStr, ord.Perm exRowBoard.getValidMoves →
          ((streamRootRun 3 exRowBoard true
              (streamChildArrivals 3 exRowBoard true ord)).map StreamResult.score).getLast?
              = some maxIntHalf
            ∧ ((streamRootRun 3 exRowBoard true
                (streamChildArrivals 3 exRowBoard true ord)).map StreamResult.final).getLast?
              = some true
            ∧ ((streamRootRun 3 exRowBoard true
                (streamChildArrivals 3 exRowBoard true ord)).filter
                  (fun r => r.final)).length = 1)
      ∧ (alphaBetaMinimax 3 exRowBoard true (rootThreshold true)).1.1 = 0
      ∧ (maxIntHalf : Int) ≠ 0 := by
  refine ⟨by decide, ?_, by decide, by decide⟩
  intro ord hord
  have hmoves : exRowBoard.getValidMoves = [mvA1, mvB1, mvC1] := by decide
  rw [hmoves] at hord
  rcases perm_three hord with rfl | rfl | rfl | rfl | rfl | rfl
  · exact ⟨by decide, by decide, by decide⟩
  · exact ⟨by decide, by decide, by decide⟩
  · exact ⟨by decide, by decide, by decide⟩
  · exact ⟨by decide, by decide, by decide⟩
  · exact ⟨by decide, by decide, by decide⟩
  · exact ⟨by decide, by decide, by decide⟩

/-- C7 at one concrete schedule: with the child results arriving in the order
B1, A1, C1, the stream ends in a final tuple scoring `MAX_INT/2` while the
sequential threshold driver returns 0 at the same depth. -/
theorem c7_stream_final_vs_sequential_witness :
    ((streamRootRun 3 exRowBoard true
        (streamChildArrivals 3 exRowBoard true [mvB1, mvA1, mvC1])).map
          StreamResult.score).getLast? = some maxIntHalf
      ∧ ((streamRootRun 3 exRowBoard true
          (streamChildArrivals 3 exRowBoard true [mvB1, mvA1, mvC1])).map
            StreamResult.final).getLast? = some true
      ∧ ((streamRootRun 3 exRowBoard true
          (streamChildArrivals 3 exRowBoard true [mvB1, mvA1, mvC1])).filter
            (fun r => r.final)).length = 1 :=
  c7_stream_final_vs_sequential.2.1 [mvB1, mvA1, mvC1] (by decide)
